import Mathlib

/-!
# Verification of the ATDW incremental load engine

Shallow embedding of the load engine of this repository
(`scripts/load_atdw_to_database.py` and the canonical helper functions of
`tests/test_atdw_unit.py`), together with proofs and refutations of the
frozen claims about it.

Modelling conventions:

* JSON records are the inductive `Json` below (null, booleans, integers,
  strings, arrays, objects).  Python dictionaries are association lists in
  insertion order; Python lists are `List Json`.
* `json.dumps(x, sort_keys := true)` with the default separators is the
  executable serializer `ser` below (proved injective).  Python escapes the
  quote and backslash characters inside string literals; other characters are
  kept verbatim in this model (Python additionally `\u`-escapes control and
  non-ASCII characters, which is likewise injective and does not affect any
  claim).
* Python's `sorted` is a stable sort whose comparisons here only inspect the
  sort key; every stable sort agrees on such inputs, so it is modelled by the
  structural `List.insertionSort` (which is stable).
* The final SHA-256 step of the content hash is a fixed deterministic
  function of the canonical serialization, so digest equalities are settled
  at the level of that serialization; digest inequalities hold under the
  standard injective (collision-free) modelling of the digest.  Accordingly
  `compute_content_hash` returns the canonical serialization itself.
-/

/-- A JSON value, as produced by `json.loads` on an API response.  Numbers are
modelled as integers (the claims under study never exercise fractional
number literals). -/
inductive Json where
  | null : Json
  | bool : Bool → Json
  | num : Int → Json
  | str : String → Json
  | arr : List Json → Json
  | obj : List (String × Json) → Json

namespace Json

/-- `true` on Python dictionaries: the `isinstance(obj[0], dict)` test of
`compute_content_hash`. -/
def isObjNode : Json → Bool
  | .obj _ => true
  | _ => false

/-- `true` on non-container values (everything `sort_nested` returns
unchanged). -/
def isScalar : Json → Bool
  | .null => true
  | .bool _ => true
  | .num _ => true
  | .str _ => true
  | .arr _ => false
  | .obj _ => false

end Json

/-- Structural induction for the nested inductive `Json`, giving the inductive
hypothesis on every array element and on every object value. -/
theorem Json.recMem {P : Json → Prop}
    (hnull : P .null)
    (hbool : ∀ b, P (.bool b))
    (hnum : ∀ n, P (.num n))
    (hstr : ∀ s, P (.str s))
    (harr : ∀ l, (∀ x ∈ l, P x) → P (.arr l))
    (hobj : ∀ ms, (∀ p ∈ ms, P p.2) → P (.obj ms)) : ∀ j, P j
  | .null => hnull
  | .bool b => hbool b
  | .num n => hnum n
  | .str s => hstr s
  | .arr l => harr l (fun x hx =>
      Json.recMem hnull hbool hnum hstr harr hobj x)
  | .obj ms => hobj ms (fun p hp =>
      Json.recMem hnull hbool hnum hstr harr hobj p.2)
termination_by j => sizeOf j
decreasing_by
  · have := List.sizeOf_lt_of_mem hx
    simp only [Json.arr.sizeOf_spec]; omega
  · have h1 := List.sizeOf_lt_of_mem hp
    have h2 : sizeOf p.2 < sizeOf p := by
      obtain ⟨k, v⟩ := p
      simp only [Prod.mk.sizeOf_spec]; omega
    simp only [Json.obj.sizeOf_spec]; omega

/-! ## The serializer: `json.dumps(x, sort_keys=True)` -/

/-- One character of a JSON string literal body: Python escapes `"` and `\`. -/
def escChar (c : Char) : List Char :=
  if c = '"' then ['\\', '"']
  else if c = '\\' then ['\\', '\\'] else [c]

/-- The body of a JSON string literal. -/
def escBody (s : List Char) : List Char := s.flatMap escChar

/-- A JSON string literal, quotes included. -/
def serStrLit (s : String) : List Char := '"' :: (escBody s.data ++ ['"'])

/-- The decimal digit characters. -/
def digitChar (d : Nat) : Char :=
  match d with
  | 0 => '0' | 1 => '1' | 2 => '2' | 3 => '3' | 4 => '4'
  | 5 => '5' | 6 => '6' | 7 => '7' | 8 => '8' | 9 => '9'
  | _ => '*'

/-- Decimal rendering of a natural number (no leading zeros, `0 ↦ "0"`). -/
def natChars (n : Nat) : List Char :=
  if n = 0 then ['0'] else ((Nat.digits 10 n).reverse).map digitChar

/-- Decimal rendering of an integer. -/
def intChars : Int → List Char
  | .ofNat n => natChars n
  | .negSucc m => '-' :: natChars (m + 1)

/-- The keyword literals of JSON. -/
def nullChars : List Char := ['n', 'u', 'l', 'l']

def trueChars : List Char := ['t', 'r', 'u', 'e']

def falseChars : List Char := ['f', 'a', 'l', 's', 'e']

mutual

/-- `json.dumps` with the default separators `", "` and `": "`, serializing
object members in their list order (after `sort_nested`, keys are already
sorted, so this coincides with `sort_keys=True`). -/
def ser : Json → List Char
  | .null => nullChars
  | .bool true => trueChars
  | .bool false => falseChars
  | .num n => intChars n
  | .str s => serStrLit s
  | .arr l => '[' :: (serItems l ++ [']'])
  | .obj ms => '\x7b' :: (serMems ms ++ ['\x7d'])

/-- Array elements joined by `", "`. -/
def serItems : List Json → List Char
  | [] => []
  | [x] => ser x
  | x :: y :: rest => ser x ++ ',' :: ' ' :: serItems (y :: rest)

/-- Object members `"key": value` joined by `", "`. -/
def serMems : List (String × Json) → List Char
  | [] => []
  | [(k, v)] => serStrLit k ++ ':' :: ' ' :: ser v
  | (k, v) :: m :: rest =>
      (serStrLit k ++ ':' :: ' ' :: ser v) ++ ',' :: ' ' :: serMems (m :: rest)

end

/-! ## Lexicographic string order (Python string comparison, by code point) -/

/-- Python `<=` on strings: lexicographic by code point. -/
def lexLe : List Char → List Char → Bool
  | _ :: _, [] => false
  | [], _ => true
  | a :: as, b :: bs =>
      if a.toNat < b.toNat then true
      else if b.toNat < a.toNat then false
      else lexLe as bs

theorem lexLe_total : ∀ a b, lexLe a b = true ∨ lexLe b a = true
  | [], b => Or.inl rfl
  | a :: as, [] => Or.inr rfl
  | a :: as, b :: bs => by
      simp only [lexLe]
      rcases Nat.lt_trichotomy a.toNat b.toNat with h | h | h
      · left; simp [h]
      · have hba : ¬ b.toNat < a.toNat := by omega
        have hab : ¬ a.toNat < b.toNat := by omega
        rcases lexLe_total as bs with ih | ih
        · left; simp [hab, hba, ih]
        · right; simp [hab, hba, ih]
      · right; simp [h]

theorem lexLe_trans : ∀ a b c, lexLe a b = true → lexLe b c = true →
    lexLe a c = true
  | [], _, _, _, _ => rfl
  | a :: as, [], c, h, _ => by simp [lexLe] at h
  | a :: as, b :: bs, [], _, h => by simp [lexLe] at h
  | a :: as, b :: bs, c :: cs, h1, h2 => by
      simp only [lexLe] at h1 h2 ⊢
      by_cases hab : a.toNat < b.toNat
      · by_cases hbc : b.toNat < c.toNat
        · simp [show a.toNat < c.toNat by omega]
        · by_cases hcb : c.toNat < b.toNat
          · simp [hbc, hcb] at h2
          · simp [show a.toNat < c.toNat by omega]
      · by_cases hba : b.toNat < a.toNat
        · simp [hab, hba] at h1
        · by_cases hbc : b.toNat < c.toNat
          · simp [show a.toNat < c.toNat by omega]
          · by_cases hcb : c.toNat < b.toNat
            · simp [hbc, hcb] at h2
            · have h1' : lexLe as bs = true := by simpa [hab, hba] using h1
              have h2' : lexLe bs cs = true := by simpa [hbc, hcb] using h2
              simp [show ¬ a.toNat < c.toNat by omega,
                show ¬ c.toNat < a.toNat by omega,
                lexLe_trans as bs cs h1' h2']

theorem char_toNat_inj {a b : Char} (h : a.toNat = b.toNat) : a = b := by
  apply Char.ext
  have : a.val.toNat = b.val.toNat := h
  exact UInt32.toNat.inj this

theorem lexLe_antisymm : ∀ a b, lexLe a b = true → lexLe b a = true → a = b
  | [], [], _, _ => rfl
  | [], b :: bs, _, h => by simp [lexLe] at h
  | a :: as, [], h, _ => by simp [lexLe] at h
  | a :: as, b :: bs, h1, h2 => by
      simp only [lexLe] at h1 h2
      by_cases hab : a.toNat < b.toNat
      · simp [hab, show ¬ b.toNat < a.toNat by omega] at h2
      · by_cases hba : b.toNat < a.toNat
        · simp [hab, hba] at h1
        · have hcc : a = b := char_toNat_inj (by omega)
          have h1' : lexLe as bs = true := by simpa [hab, hba] using h1
          have h2' : lexLe bs as = true := by simpa [hab, hba] using h2
          rw [hcc, lexLe_antisymm as bs h1' h2']

/-! ## `sort_nested` (the canonicalization of `compute_content_hash`) -/

/-- The sort key of `compute_content_hash`: `json.dumps(x, sort_keys=True)`,
as a linear order on elements. -/
def jleP (a b : Json) : Prop := lexLe (ser a) (ser b) = true

instance : DecidableRel jleP := fun a b => by unfold jleP; infer_instance

/-- Member order of `sorted(obj.items())`: tuple comparison on `(key, value)`
reaches the value only on equal keys, which cannot happen inside a Python
dictionary, so it is the key order. -/
def keyLeP (p q : String × Json) : Prop := lexLe p.1.data q.1.data = true

instance : DecidableRel keyLeP := fun p q => by unfold keyLeP; infer_instance

mutual

/-- `sort_nested` of `compute_content_hash`: object keys sorted at every
level, a list is sorted by the serialized form of its (recursively
canonicalized) elements exactly when its first element is a dictionary, and
kept in order otherwise. -/
def sortNested : Json → Json
  | .null => .null
  | .bool b => .bool b
  | .num n => .num n
  | .str s => .str s
  | .arr [] => .arr []
  | .arr (x :: xs) =>
      if x.isObjNode then .arr (List.insertionSort jleP (sortList (x :: xs)))
      else .arr (sortList (x :: xs))
  | .obj ms => .obj (List.insertionSort keyLeP (sortMems ms))

/-- `[sort_nested(item) for item in obj]`. -/
def sortList : List Json → List Json
  | [] => []
  | x :: xs => sortNested x :: sortList xs

/-- `{k: sort_nested(v) for k, v in ...}` (values canonicalized). -/
def sortMems : List (String × Json) → List (String × Json)
  | [] => []
  | (k, v) :: ms => (k, sortNested v) :: sortMems ms

end

/-- `compute_content_hash` (tests/test_atdw_unit.py): the canonical
serialization `json.dumps(sort_nested(product), sort_keys=True)`; the final
SHA-256 digest is modelled as an injective fingerprint of this string (see
the module comment). -/
def compute_content_hash (r : Json) : String := ⟨ser (sortNested r)⟩

/-! ## Unambiguity of the serializer

`ser` is injective: the serialized form of a value followed by a
"delimited" continuation (one that does not start with a digit, as after any
JSON value inside an array, object or at top level) determines the value and
the continuation.  This is what makes sorting by `json.dumps` a linear order
on canonical values, and digest inequalities meaningful. -/

/-- A continuation that cannot extend a decimal literal. -/
def numSafe : List Char → Bool
  | [] => true
  | c :: _ => !c.isDigit

theorem digitRun_unamb : ∀ (d₁ d₂ s t : List Char),
    (∀ c ∈ d₁, c.isDigit = true) → (∀ c ∈ d₂, c.isDigit = true) →
    numSafe s = true → numSafe t = true → d₁ ++ s = d₂ ++ t →
    d₁ = d₂ ∧ s = t
  | [], [], s, t, _, _, _, _, h => ⟨rfl, by simpa using h⟩
  | [], c :: cs, s, t, _, hd₂, hs, _, h => by
      simp only [List.nil_append] at h
      rw [h] at hs
      have : c.isDigit = true := hd₂ c (by simp)
      simp [numSafe, this] at hs
  | c :: cs, [], s, t, hd₁, _, _, ht, h => by
      simp only [List.nil_append] at h
      rw [← h] at ht
      have : c.isDigit = true := hd₁ c (by simp)
      simp [numSafe, this] at ht
  | c₁ :: cs₁, c₂ :: cs₂, s, t, hd₁, hd₂, hs, ht, h => by
      simp only [List.cons_append, List.cons.injEq] at h
      obtain ⟨hc, hrest⟩ := h
      obtain ⟨h1, h2⟩ := digitRun_unamb cs₁ cs₂ s t
        (fun c hc' => hd₁ c (by simp [hc'])) (fun c hc' => hd₂ c (by simp [hc']))
        hs ht hrest
      exact ⟨by rw [hc, h1], h2⟩

theorem digitChar_isDigit {d : Nat} (hd : d < 10) : (digitChar d).isDigit = true := by
  interval_cases d <;> decide

theorem digitChar_inj {d₁ d₂ : Nat} (h1 : d₁ < 10) (h2 : d₂ < 10)
    (h : digitChar d₁ = digitChar d₂) : d₁ = d₂ := by
  have key : ∀ a b : Fin 10, digitChar a.val = digitChar b.val → a = b := by decide
  have := key ⟨d₁, h1⟩ ⟨d₂, h2⟩ h
  exact congrArg Fin.val this

theorem natChars_digits (n : Nat) : ∀ c ∈ natChars n, c.isDigit = true := by
  intro c hc
  unfold natChars at hc
  split at hc
  · simp at hc; subst hc; decide
  · simp only [List.mem_map, List.mem_reverse] at hc
    obtain ⟨d, hd, rfl⟩ := hc
    exact digitChar_isDigit (Nat.digits_lt_base (by norm_num) hd)

theorem natChars_ne_nil (n : Nat) : natChars n ≠ [] := by
  unfold natChars
  split
  · simp
  · rename_i hn
    simp only [ne_eq, List.map_eq_nil_iff, List.reverse_eq_nil_iff]
    exact Nat.digits_ne_nil_iff_ne_zero.mpr hn

theorem map_digitChar_inj : ∀ (l₁ l₂ : List Nat), (∀ d ∈ l₁, d < 10) →
    (∀ d ∈ l₂, d < 10) → l₁.map digitChar = l₂.map digitChar → l₁ = l₂
  | [], [], _, _, _ => rfl
  | [], d :: ds, _, _, h => by simp at h
  | d :: ds, [], _, _, h => by simp at h
  | d₁ :: ds₁, d₂ :: ds₂, h1, h2, h => by
      simp only [List.map_cons, List.cons.injEq] at h
      obtain ⟨hc, hrest⟩ := h
      rw [digitChar_inj (h1 d₁ (by simp)) (h2 d₂ (by simp)) hc,
        map_digitChar_inj ds₁ ds₂ (fun d hd => h1 d (by simp [hd]))
          (fun d hd => h2 d (by simp [hd])) hrest]

theorem natChars_eq_singleton_zero {n : Nat} (h : natChars n = ['0']) : n = 0 := by
  by_contra hn
  unfold natChars at h
  rw [if_neg hn] at h
  have hl : ((Nat.digits 10 n).reverse).length = 1 := by
    have := congrArg List.length h; simpa using this
  obtain ⟨d, hd⟩ := List.length_eq_one.mp hl
  rw [hd] at h
  simp only [List.map_cons, List.map_nil, List.cons.injEq, and_true] at h
  have hd10 : d < 10 := Nat.digits_lt_base (by norm_num)
    (by rw [← List.mem_reverse, hd]; simp)
  have hd0 : d = 0 := digitChar_inj hd10 (by norm_num)
    (show digitChar d = digitChar 0 from h)
  subst hd0
  have hdig : Nat.digits 10 n = [0] := by
    have := congrArg List.reverse hd; simpa using this
  have hofd := Nat.ofDigits_digits 10 n
  rw [hdig] at hofd
  simp [Nat.ofDigits] at hofd
  exact hn hofd.symm

theorem natChars_inj {m n : Nat} (h : natChars m = natChars n) : m = n := by
  have h0 : natChars 0 = ['0'] := by unfold natChars; simp
  by_cases hm : m = 0 <;> by_cases hn : n = 0
  · omega
  · subst hm
    have := natChars_eq_singleton_zero (h.symm.trans h0)
    omega
  · subst hn
    have := natChars_eq_singleton_zero (h.trans h0)
    omega
  · unfold natChars at h
    rw [if_neg hm, if_neg hn] at h
    have hdig : Nat.digits 10 m = Nat.digits 10 n := by
      have hrev := map_digitChar_inj _ _
        (fun d hd => Nat.digits_lt_base (by norm_num) (List.mem_reverse.mp hd))
        (fun d hd => Nat.digits_lt_base (by norm_num) (List.mem_reverse.mp hd)) h
      have := congrArg List.reverse hrev; simpa using this
    have h1 := Nat.ofDigits_digits 10 m
    rw [hdig] at h1
    exact h1.symm.trans (Nat.ofDigits_digits 10 n)


theorem natChars_head (n : Nat) :
    ∃ c cs, natChars n = c :: cs ∧ c.isDigit = true := by
  obtain ⟨c, cs, hc⟩ := List.exists_cons_of_ne_nil (natChars_ne_nil n)
  exact ⟨c, cs, hc, natChars_digits n c (by rw [hc]; simp)⟩

theorem intChars_head (n : Int) :
    ∃ c cs, intChars n = c :: cs ∧ (c.isDigit = true ∨ c = '-') := by
  match n with
  | .ofNat m =>
    obtain ⟨c, cs, hc, hd⟩ := natChars_head m
    exact ⟨c, cs, hc, Or.inl hd⟩
  | .negSucc m =>
    exact ⟨'-', natChars (m + 1), rfl, Or.inr rfl⟩

theorem intChars_unamb : ∀ (n₁ n₂ : Int) (s t : List Char),
    numSafe s = true → numSafe t = true →
    intChars n₁ ++ s = intChars n₂ ++ t → n₁ = n₂ ∧ s = t := by
  intro n₁ n₂ s t hs ht h
  match n₁, n₂ with
  | .ofNat m, .ofNat n =>
    obtain ⟨h1, h2⟩ := digitRun_unamb _ _ s t (natChars_digits m)
      (natChars_digits n) hs ht h
    exact ⟨congrArg Int.ofNat (natChars_inj h1), h2⟩
  | .ofNat m, .negSucc n =>
    exfalso
    obtain ⟨c, cs, hc, hd⟩ := natChars_head m
    simp only [intChars, hc, List.cons_append, List.cons.injEq] at h
    rw [h.1] at hd
    simp at hd
  | .negSucc m, .ofNat n =>
    exfalso
    obtain ⟨c, cs, hc, hd⟩ := natChars_head n
    simp only [intChars, hc, List.cons_append, List.cons.injEq] at h
    rw [← h.1] at hd
    simp at hd
  | .negSucc m, .negSucc n =>
    simp only [intChars, List.cons_append, List.cons.injEq, true_and] at h
    obtain ⟨h1, h2⟩ := digitRun_unamb _ _ s t (natChars_digits (m + 1))
      (natChars_digits (n + 1)) hs ht h
    have hmn : m = n := by have := natChars_inj h1; omega
    exact ⟨by rw [hmn], h2⟩

theorem escChar_cases (c : Char) :
    (c = '"' ∧ escChar c = ['\\', '"']) ∨ (c = '\\' ∧ escChar c = ['\\', '\\'])
    ∨ (c ≠ '"' ∧ c ≠ '\\' ∧ escChar c = [c]) := by
  unfold escChar
  by_cases h1 : c = '"'
  · left; simp [h1]
  · by_cases h2 : c = '\\'
    · right; left; simp [h1, h2]
    · right; right; simp [h1, h2]

theorem escBody_cons (c : Char) (cs : List Char) :
    escBody (c :: cs) = escChar c ++ escBody cs := by
  simp [escBody]

theorem escBody_nil : escBody [] = [] := rfl

theorem escBody_unamb : ∀ (s₁ s₂ r₁ r₂ : List Char),
    escBody s₁ ++ '"' :: r₁ = escBody s₂ ++ '"' :: r₂ → s₁ = s₂ ∧ r₁ = r₂
  | [], [], r₁, r₂, h => ⟨rfl, by simpa [escBody] using h⟩
  | [], c :: cs, r₁, r₂, h => by
      exfalso
      rw [escBody_nil, escBody_cons] at h
      simp only [List.nil_append, List.append_assoc] at h
      rcases escChar_cases c with ⟨hc, he⟩ | ⟨hc, he⟩ | ⟨hc1, hc2, he⟩ <;>
        rw [he] at h <;>
        simp only [List.cons_append, List.nil_append, List.append_assoc] at h
      · injection h with h1 _; exact absurd h1 (by decide)
      · injection h with h1 _; exact absurd h1 (by decide)
      · injection h with h1 _; exact hc1 h1.symm
  | c :: cs, [], r₁, r₂, h => by
      exfalso
      rw [escBody_nil, escBody_cons] at h
      simp only [List.nil_append, List.append_assoc] at h
      rcases escChar_cases c with ⟨hc, he⟩ | ⟨hc, he⟩ | ⟨hc1, hc2, he⟩ <;>
        rw [he] at h <;>
        simp only [List.cons_append, List.nil_append, List.append_assoc] at h
      · injection h with h1 _; exact absurd h1 (by decide)
      · injection h with h1 _; exact absurd h1 (by decide)
      · injection h with h1 _; exact hc1 h1
  | c :: cs, c' :: cs', r₁, r₂, h => by
      rw [escBody_cons, escBody_cons] at h
      rcases escChar_cases c with ⟨hc, he⟩ | ⟨hc, he⟩ | ⟨hc1, hc2, he⟩ <;>
        rcases escChar_cases c' with ⟨hc', he'⟩ | ⟨hc', he'⟩ | ⟨hc1', hc2', he'⟩ <;>
        rw [he, he'] at h <;>
        simp only [List.cons_append, List.nil_append, List.append_assoc] at h
      · injection h with _ h; injection h with _ h
        obtain ⟨hcs, hr⟩ := escBody_unamb cs cs' r₁ r₂ h
        exact ⟨by rw [hc, hc', hcs], hr⟩
      · injection h with _ h; injection h with h2 _
        exact absurd h2 (by decide)
      · injection h with h1 _
        exact absurd h1.symm hc2'
      · injection h with _ h; injection h with h2 _
        exact absurd h2 (by decide)
      · injection h with _ h; injection h with _ h
        obtain ⟨hcs, hr⟩ := escBody_unamb cs cs' r₁ r₂ h
        exact ⟨by rw [hc, hc', hcs], hr⟩
      · injection h with h1 _
        exact absurd h1.symm hc2'
      · injection h with h1 _
        exact absurd h1 hc2
      · injection h with h1 _
        exact absurd h1 hc2
      · injection h with h1 h
        obtain ⟨hcs, hr⟩ := escBody_unamb cs cs' r₁ r₂ h
        exact ⟨by rw [h1, hcs], hr⟩

theorem serStrLit_unamb (k₁ k₂ : String) (r₁ r₂ : List Char)
    (h : serStrLit k₁ ++ r₁ = serStrLit k₂ ++ r₂) : k₁ = k₂ ∧ r₁ = r₂ := by
  unfold serStrLit at h
  simp only [List.cons_append, List.append_assoc, List.singleton_append,
    List.cons.injEq, true_and] at h
  obtain ⟨hd, hr⟩ := escBody_unamb k₁.data k₂.data r₁ r₂ h
  exact ⟨String.ext hd, hr⟩

/-- Constructor class of a value (used to discriminate serializations by
their first character). -/
def cls : Json → Nat
  | .null => 0
  | .bool _ => 1
  | .num _ => 2
  | .str _ => 3
  | .arr _ => 4
  | .obj _ => 5

/-- Class of a character as the first character of a serialization; `6` for
characters that can never start one. -/
def clsChar (c : Char) : Nat :=
  if c = 'n' then 0
  else if c = 't' ∨ c = 'f' then 1
  else if c.isDigit = true ∨ c = '-' then 2
  else if c = '"' then 3
  else if c = '[' then 4
  else if c = '\x7b' then 5
  else 6

theorem clsChar_digit {c : Char} (h : c.isDigit = true) : clsChar c = 2 := by
  have hn : c ≠ 'n' := by rintro rfl; exact absurd h (by decide)
  have ht : c ≠ 't' := by rintro rfl; exact absurd h (by decide)
  have hf : c ≠ 'f' := by rintro rfl; exact absurd h (by decide)
  simp [clsChar, hn, ht, hf, h]

theorem cls_le (a : Json) : cls a ≤ 5 := by
  cases a <;> simp [cls]

theorem ser_head : ∀ a : Json, ∃ c cs, ser a = c :: cs ∧ clsChar c = cls a := by
  intro a
  match a with
  | .null => exact ⟨'n', ['u', 'l', 'l'], by simp [ser, nullChars], by decide⟩
  | .bool true => exact ⟨'t', ['r', 'u', 'e'], by simp [ser, trueChars], by decide⟩
  | .bool false =>
    exact ⟨'f', ['a', 'l', 's', 'e'], by simp [ser, falseChars], by decide⟩
  | .num n =>
    obtain ⟨c, cs, hc, hd⟩ := intChars_head n
    refine ⟨c, cs, by simp [ser, hc], ?_⟩
    rcases hd with hd | hd
    · rw [clsChar_digit hd]; rfl
    · subst hd; rfl
  | .str s =>
    exact ⟨'"', escBody s.data ++ ['"'], by simp [ser, serStrLit], rfl⟩
  | .arr l => exact ⟨'[', serItems l ++ [']'], by simp [ser], rfl⟩
  | .obj ms => exact ⟨'\x7b', serMems ms ++ ['\x7d'], by simp [ser], rfl⟩

theorem cls_eq_of_ser_app {a b : Json} {s t : List Char}
    (h : ser a ++ s = ser b ++ t) : cls a = cls b := by
  obtain ⟨c₁, cs₁, h₁, e₁⟩ := ser_head a
  obtain ⟨c₂, cs₂, h₂, e₂⟩ := ser_head b
  rw [h₁, h₂] at h
  simp only [List.cons_append] at h
  injection h with hc _
  rw [← e₁, ← e₂, hc]

/-- A serialization never starts with a delimiter character. -/
theorem ser_app_ne_delim (a : Json) (s rest : List Char) (d : Char)
    (hd : clsChar d = 6) : ser a ++ s ≠ d :: rest := by
  intro h
  obtain ⟨c, cs, hc, e⟩ := ser_head a
  rw [hc] at h
  simp only [List.cons_append] at h
  injection h with h1 _
  rw [h1, hd] at e
  have := cls_le a
  omega

theorem numSafe_cons {c : Char} (X : List Char) (h : c.isDigit = false) :
    numSafe (c :: X) = true := by simp [numSafe, h]

theorem serItems_cons_eq (x : Json) (xs : List Json) :
    ∃ Q, serItems (x :: xs) = ser x ++ Q := by
  match xs with
  | [] => exact ⟨[], by simp [serItems]⟩
  | y :: rest => exact ⟨',' :: ' ' :: serItems (y :: rest), by simp [serItems]⟩

theorem serMems_cons_eq (m : String × Json) (ms : List (String × Json)) :
    ∃ Q, serMems (m :: ms) = serStrLit m.1 ++ Q := by
  obtain ⟨k, v⟩ := m
  match ms with
  | [] => exact ⟨':' :: ' ' :: ser v, by simp [serMems]⟩
  | m' :: rest =>
    exact ⟨(':' :: ' ' :: ser v) ++ ',' :: ' ' :: serMems (m' :: rest),
      by simp [serMems]⟩

mutual

theorem ser_unamb : ∀ (a b : Json) (s t : List Char), numSafe s = true →
    numSafe t = true → ser a ++ s = ser b ++ t → a = b ∧ s = t
  | a, b, s, t, hs, ht, h => by
    have hcls : cls a = cls b := cls_eq_of_ser_app h
    cases a <;> cases b <;> try (simp only [cls] at hcls; omega)
    · -- null / null
      exact ⟨rfl, List.append_cancel_left h⟩
    · -- bool / bool
      rename_i b1 b2
      cases b1 <;> cases b2
      · exact ⟨rfl, List.append_cancel_left h⟩
      · exfalso
        simp only [ser, trueChars, falseChars, List.cons_append,
          List.nil_append] at h
        injection h with h1 _
        exact absurd h1 (by decide)
      · exfalso
        simp only [ser, trueChars, falseChars, List.cons_append,
          List.nil_append] at h
        injection h with h1 _
        exact absurd h1 (by decide)
      · exact ⟨rfl, List.append_cancel_left h⟩
    · -- num / num
      rename_i n1 n2
      simp only [ser] at h
      obtain ⟨h1, h2⟩ := intChars_unamb n1 n2 s t hs ht h
      exact ⟨by rw [h1], h2⟩
    · -- str / str
      rename_i s1 s2
      simp only [ser] at h
      obtain ⟨h1, h2⟩ := serStrLit_unamb s1 s2 s t h
      exact ⟨by rw [h1], h2⟩
    · -- arr / arr
      rename_i l1 l2
      simp only [ser, List.cons_append, List.append_assoc,
        List.singleton_append] at h
      injection h with _ h
      obtain ⟨h1, h2⟩ := serItems_unamb l1 l2 s t h
      exact ⟨by rw [h1], h2⟩
    · -- obj / obj
      rename_i m1 m2
      simp only [ser, List.cons_append, List.append_assoc,
        List.singleton_append] at h
      injection h with _ h
      obtain ⟨h1, h2⟩ := serMems_unamb m1 m2 s t h
      exact ⟨by rw [h1], h2⟩

theorem serItems_unamb : ∀ (l₁ l₂ : List Json) (s t : List Char),
    serItems l₁ ++ ']' :: s = serItems l₂ ++ ']' :: t → l₁ = l₂ ∧ s = t
  | [], [], s, t, h => ⟨rfl, by simpa using h⟩
  | [], x :: xs, s, t, h => by
      exfalso
      obtain ⟨Q, hQ⟩ := serItems_cons_eq x xs
      rw [hQ, List.append_assoc] at h
      simp only [serItems, List.nil_append] at h
      exact ser_app_ne_delim x (Q ++ ']' :: t) s ']' (by decide) h.symm
  | x :: xs, [], s, t, h => by
      exfalso
      obtain ⟨Q, hQ⟩ := serItems_cons_eq x xs
      rw [hQ, List.append_assoc] at h
      simp only [serItems, List.nil_append] at h
      exact ser_app_ne_delim x (Q ++ ']' :: s) t ']' (by decide) h
  | x₁ :: xs₁, x₂ :: xs₂, s, t, h => by
      match xs₁, xs₂ with
      | [], [] =>
        simp only [serItems] at h
        obtain ⟨h1, h2⟩ := ser_unamb x₁ x₂ (']' :: s) (']' :: t)
          (numSafe_cons _ (by decide)) (numSafe_cons _ (by decide)) h
        injection h2 with _ h2
        exact ⟨by rw [h1], h2⟩
      | [], y₂ :: ys₂ =>
        exfalso
        simp only [serItems, List.cons_append, List.append_assoc] at h
        obtain ⟨h1, h2⟩ := ser_unamb x₁ x₂ (']' :: s)
          (',' :: ' ' :: (serItems (y₂ :: ys₂) ++ ']' :: t))
          (numSafe_cons _ (by decide)) (numSafe_cons _ (by decide)) h
        injection h2 with h2 _
        exact absurd h2 (by decide)
      | y₁ :: ys₁, [] =>
        exfalso
        simp only [serItems, List.cons_append, List.append_assoc] at h
        obtain ⟨h1, h2⟩ := ser_unamb x₁ x₂
          (',' :: ' ' :: (serItems (y₁ :: ys₁) ++ ']' :: s)) (']' :: t)
          (numSafe_cons _ (by decide)) (numSafe_cons _ (by decide)) h
        injection h2 with h2 _
        exact absurd h2 (by decide)
      | y₁ :: ys₁, y₂ :: ys₂ =>
        simp only [serItems, List.cons_append, List.append_assoc] at h
        obtain ⟨h1, h2⟩ := ser_unamb x₁ x₂
          (',' :: ' ' :: (serItems (y₁ :: ys₁) ++ ']' :: s))
          (',' :: ' ' :: (serItems (y₂ :: ys₂) ++ ']' :: t))
          (numSafe_cons _ (by decide)) (numSafe_cons _ (by decide)) h
        injection h2 with _ h2
        injection h2 with _ h2
        obtain ⟨h3, h4⟩ := serItems_unamb (y₁ :: ys₁) (y₂ :: ys₂) s t h2
        exact ⟨by rw [h1, h3], h4⟩

theorem serMems_unamb : ∀ (m₁ m₂ : List (String × Json)) (s t : List Char),
    serMems m₁ ++ '\x7d' :: s = serMems m₂ ++ '\x7d' :: t → m₁ = m₂ ∧ s = t
  | [], [], s, t, h => ⟨rfl, by simpa using h⟩
  | [], m :: ms, s, t, h => by
      exfalso
      obtain ⟨Q, hQ⟩ := serMems_cons_eq m ms
      rw [hQ] at h
      simp only [serMems, List.nil_append, serStrLit, List.cons_append,
        List.append_assoc] at h
      injection h with h1 _
      exact absurd h1 (by decide)
  | m :: ms, [], s, t, h => by
      exfalso
      obtain ⟨Q, hQ⟩ := serMems_cons_eq m ms
      rw [hQ] at h
      simp only [serMems, List.nil_append, serStrLit, List.cons_append,
        List.append_assoc] at h
      injection h with h1 _
      exact absurd h1 (by decide)
  | (k₁, v₁) :: ms₁, (k₂, v₂) :: ms₂, s, t, h => by
      match ms₁, ms₂ with
      | [], [] =>
        simp only [serMems, List.cons_append, List.append_assoc] at h
        obtain ⟨hk, h2⟩ := serStrLit_unamb k₁ k₂ _ _ h
        injection h2 with _ h2
        injection h2 with _ h2
        obtain ⟨hv, h3⟩ := ser_unamb v₁ v₂ ('\x7d' :: s) ('\x7d' :: t)
          (numSafe_cons _ (by decide)) (numSafe_cons _ (by decide)) h2
        injection h3 with _ h3
        exact ⟨by rw [hk, hv], h3⟩
      | [], m₂' :: ms₂' =>
        exfalso
        simp only [serMems, List.cons_append, List.append_assoc] at h
        obtain ⟨hk, h2⟩ := serStrLit_unamb k₁ k₂ _ _ h
        injection h2 with _ h2
        injection h2 with _ h2
        obtain ⟨hv, h3⟩ := ser_unamb v₁ v₂ ('\x7d' :: s)
          (',' :: ' ' :: (serMems (m₂' :: ms₂') ++ '\x7d' :: t))
          (numSafe_cons _ (by decide)) (numSafe_cons _ (by decide)) h2
        injection h3 with h3 _
        exact absurd h3 (by decide)
      | m₁' :: ms₁', [] =>
        exfalso
        simp only [serMems, List.cons_append, List.append_assoc] at h
        obtain ⟨hk, h2⟩ := serStrLit_unamb k₁ k₂ _ _ h
        injection h2 with _ h2
        injection h2 with _ h2
        obtain ⟨hv, h3⟩ := ser_unamb v₁ v₂
          (',' :: ' ' :: (serMems (m₁' :: ms₁') ++ '\x7d' :: s)) ('\x7d' :: t)
          (numSafe_cons _ (by decide)) (numSafe_cons _ (by decide)) h2
        injection h3 with h3 _
        exact absurd h3 (by decide)
      | m₁' :: ms₁', m₂' :: ms₂' =>
        simp only [serMems, List.cons_append, List.append_assoc] at h
        obtain ⟨hk, h2⟩ := serStrLit_unamb k₁ k₂ _ _ h
        injection h2 with _ h2
        injection h2 with _ h2
        obtain ⟨hv, h3⟩ := ser_unamb v₁ v₂
          (',' :: ' ' :: (serMems (m₁' :: ms₁') ++ '\x7d' :: s))
          (',' :: ' ' :: (serMems (m₂' :: ms₂') ++ '\x7d' :: t))
          (numSafe_cons _ (by decide)) (numSafe_cons _ (by decide)) h2
        injection h3 with _ h3
        injection h3 with _ h3
        obtain ⟨h4, h5⟩ := serMems_unamb (m₁' :: ms₁') (m₂' :: ms₂') s t h3
        exact ⟨by rw [hk, hv, h4], h5⟩

end

/-- The serializer is injective. -/
theorem ser_inj {a b : Json} (h : ser a = ser b) : a = b := by
  have h' : ser a ++ [] = ser b ++ [] := by simpa using h
  exact (ser_unamb a b [] [] rfl rfl h').1

/-! ## The sort key is a linear order on canonical values -/

instance : IsTrans Json jleP :=
  ⟨fun a b c => lexLe_trans (ser a) (ser b) (ser c)⟩

instance : IsTotal Json jleP :=
  ⟨fun a b => lexLe_total (ser a) (ser b)⟩

instance : IsAntisymm Json jleP :=
  ⟨fun a b h1 h2 => ser_inj (lexLe_antisymm _ _ h1 h2)⟩

instance : IsTrans (String × Json) keyLeP :=
  ⟨fun p q r => lexLe_trans p.1.data q.1.data r.1.data⟩

instance : IsTotal (String × Json) keyLeP :=
  ⟨fun p q => lexLe_total p.1.data q.1.data⟩

/-- Digest equality is exactly equality of canonical forms. -/
theorem hash_eq_iff {a b : Json} :
    compute_content_hash a = compute_content_hash b ↔ sortNested a = sortNested b := by
  constructor
  · intro h
    unfold compute_content_hash at h
    injection h with h
    exact ser_inj h
  · intro h
    unfold compute_content_hash
    rw [h]

/-- Sorting two lists that are permutations of each other gives the same
result (the sort key is injective on elements). -/
theorem insertionSort_eq_of_perm {l₁ l₂ : List Json} (h : List.Perm l₁ l₂) :
    List.insertionSort jleP l₁ = List.insertionSort jleP l₂ :=
  List.eq_of_perm_of_sorted
    ((List.perm_insertionSort jleP l₁).trans
      (h.trans (List.perm_insertionSort jleP l₂).symm))
    (List.sorted_insertionSort jleP l₁) (List.sorted_insertionSort jleP l₂)

theorem sortList_eq_map : ∀ l : List Json, sortList l = l.map sortNested
  | [] => rfl
  | x :: xs => by simp [sortList, sortList_eq_map xs]

theorem sortMems_eq_map : ∀ ms : List (String × Json),
    sortMems ms = ms.map (fun p => (p.1, sortNested p.2))
  | [] => rfl
  | (k, v) :: ms => by simp [sortMems, sortMems_eq_map ms]

theorem sortNested_scalar {x : Json} (h : x.isScalar = true) : sortNested x = x := by
  cases x
  · simp [sortNested]
  · simp [sortNested]
  · simp [sortNested]
  · simp [sortNested]
  · simp [Json.isScalar] at h
  · simp [Json.isScalar] at h

/-! ## `permute_lists`: reordering of lists of objects -/

/-- All elements of the list are objects. -/
def allObj (l : List Json) : Bool := l.all Json.isObjNode

mutual

/-- `permute_lists` of the specification: applies the reordering `σ` to every
list all of whose elements are objects (the reordering is applied to the
recursively transformed elements). -/
def permuteLists (σ : List Json → List Json) : Json → Json
  | .null => .null
  | .bool b => .bool b
  | .num n => .num n
  | .str s => .str s
  | .arr l => if allObj l then .arr (σ (permList σ l)) else .arr (permList σ l)
  | .obj ms => .obj (permMems σ ms)

def permList (σ : List Json → List Json) : List Json → List Json
  | [] => []
  | x :: xs => permuteLists σ x :: permList σ xs

def permMems (σ : List Json → List Json) :
    List (String × Json) → List (String × Json)
  | [] => []
  | (k, v) :: ms => (k, permuteLists σ v) :: permMems σ ms

end

theorem permList_eq_map (σ : List Json → List Json) :
    ∀ l : List Json, permList σ l = l.map (permuteLists σ)
  | [] => rfl
  | x :: xs => by simp [permList, permList_eq_map σ xs]

theorem permMems_eq_map (σ : List Json → List Json) :
    ∀ ms : List (String × Json),
      permMems σ ms = ms.map (fun p => (p.1, permuteLists σ p.2))
  | [] => rfl
  | (k, v) :: ms => by simp [permMems, permMems_eq_map σ ms]

theorem isObjNode_permuteLists (σ : List Json → List Json) (x : Json) :
    (permuteLists σ x).isObjNode = x.isObjNode := by
  cases x
  · simp [permuteLists, Json.isObjNode]
  · simp [permuteLists, Json.isObjNode]
  · simp [permuteLists, Json.isObjNode]
  · simp [permuteLists, Json.isObjNode]
  · rename_i l
    by_cases hl : allObj l = true
    · simp [permuteLists, hl, Json.isObjNode]
    · simp [permuteLists, hl, Json.isObjNode]
  · simp [permuteLists, Json.isObjNode]

theorem permuteLists_sortNested (σ : List Json → List Json)
    (hσ : ∀ l, List.Perm (σ l) l) :
    ∀ R, sortNested (permuteLists σ R) = sortNested R := by
  intro R
  induction R using Json.recMem with
  | hnull => simp [permuteLists]
  | hbool b => simp [permuteLists]
  | hnum n => simp [permuteLists]
  | hstr s => simp [permuteLists]
  | harr l ih =>
    have hmap : sortList (permList σ l) = sortList l := by
      rw [sortList_eq_map, sortList_eq_map, permList_eq_map, List.map_map]
      exact List.map_congr_left (fun x hx => ih x hx)
    by_cases hl : allObj l = true
    · rw [show permuteLists σ (.arr l) = .arr (σ (permList σ l)) from by
        simp [permuteLists, hl]]
      cases l with
      | nil =>
        have h1 : permList σ ([] : List Json) = [] := rfl
        rw [h1, (hσ []).eq_nil]
      | cons x xs =>
        have hx : x.isObjNode = true := by
          unfold allObj at hl
          exact List.all_eq_true.mp hl x (by simp)
        cases hσL : σ (permList σ (x :: xs)) with
        | nil =>
          exfalso
          have := (hσ (permList σ (x :: xs))).symm
          rw [hσL] at this
          have := this.eq_nil
          simp [permList] at this
        | cons y ys =>
          have hy : y.isObjNode = true := by
            have hyL : y ∈ σ (permList σ (x :: xs)) := by rw [hσL]; simp
            have hyL2 : y ∈ permList σ (x :: xs) :=
              (hσ (permList σ (x :: xs))).mem_iff.mp hyL
            rw [permList_eq_map] at hyL2
            obtain ⟨z, hz, rfl⟩ := List.mem_map.mp hyL2
            rw [isObjNode_permuteLists]
            unfold allObj at hl
            exact List.all_eq_true.mp hl z hz
          rw [show sortNested (.arr (y :: ys)) =
              .arr (List.insertionSort jleP (sortList (y :: ys))) from by
            simp [sortNested, hy]]
          rw [show sortNested (.arr (x :: xs)) =
              .arr (List.insertionSort jleP (sortList (x :: xs))) from by
            simp [sortNested, hx]]
          congr 1
          apply insertionSort_eq_of_perm
          have hp : List.Perm (y :: ys) (permList σ (x :: xs)) := by
            rw [← hσL]; exact hσ _
          have hperm2 : List.Perm (List.map sortNested (y :: ys))
              (List.map sortNested (permList σ (x :: xs))) := hp.map sortNested
          rw [sortList_eq_map (y :: ys), ← hmap,
            sortList_eq_map (permList σ (x :: xs))]
          exact hperm2
    · rw [show permuteLists σ (.arr l) = .arr (permList σ l) from by
        simp [permuteLists, hl]]
      cases l with
      | nil => simp [allObj] at hl
      | cons x xs =>
        have hperm_head : permList σ (x :: xs) =
            permuteLists σ x :: permList σ xs := rfl
        by_cases hx : x.isObjNode = true
        · have hx' : (permuteLists σ x).isObjNode = true := by
            rw [isObjNode_permuteLists]; exact hx
          rw [hperm_head]
          rw [show sortNested (.arr (permuteLists σ x :: permList σ xs)) =
              .arr (List.insertionSort jleP
                (sortList (permuteLists σ x :: permList σ xs))) from by
            simp [sortNested, hx']]
          rw [show sortNested (.arr (x :: xs)) =
              .arr (List.insertionSort jleP (sortList (x :: xs))) from by
            simp [sortNested, hx]]
          rw [← hperm_head, hmap]
        · have hx' : (permuteLists σ x).isObjNode = false := by
            rw [isObjNode_permuteLists]
            simpa using hx
          rw [hperm_head]
          rw [show sortNested (.arr (permuteLists σ x :: permList σ xs)) =
              .arr (sortList (permuteLists σ x :: permList σ xs)) from by
            simp [sortNested, hx']]
          rw [show sortNested (.arr (x :: xs)) =
              .arr (sortList (x :: xs)) from by
            simp [sortNested, hx]]
          rw [← hperm_head, hmap]
  | hobj ms ih =>
    rw [show permuteLists σ (.obj ms) = .obj (permMems σ ms) from by
      simp [permuteLists]]
    simp only [sortNested]
    congr 1
    congr 1
    rw [sortMems_eq_map, sortMems_eq_map, permMems_eq_map, List.map_map]
    apply List.map_congr_left
    intro p hp
    simp only [Function.comp_apply]
    rw [ih p hp]

/-! ## Canonical forms have sorted keys at every nesting level -/

/-- Adjacent keys of the member list are in lexicographic order. -/
def chainKeyLe : List (String × Json) → Bool
  | [] => true
  | [_] => true
  | p :: q :: rest => lexLe p.1.data q.1.data && chainKeyLe (q :: rest)

mutual

/-- Every object occurring in the value has its keys in lexicographic order. -/
def keysOK : Json → Bool
  | .null => true
  | .bool _ => true
  | .num _ => true
  | .str _ => true
  | .arr l => keysOKList l
  | .obj ms => chainKeyLe ms && keysOKMems ms

def keysOKList : List Json → Bool
  | [] => true
  | x :: xs => keysOK x && keysOKList xs

def keysOKMems : List (String × Json) → Bool
  | [] => true
  | p :: ms => keysOK p.2 && keysOKMems ms

end

theorem keysOKList_iff : ∀ l : List Json,
    keysOKList l = true ↔ ∀ x ∈ l, keysOK x = true
  | [] => by simp [keysOKList]
  | x :: xs => by
      simp [keysOKList, keysOKList_iff xs]

theorem keysOKMems_iff : ∀ ms : List (String × Json),
    keysOKMems ms = true ↔ ∀ p ∈ ms, keysOK p.2 = true
  | [] => by simp [keysOKMems]
  | p :: ms => by
      simp [keysOKMems, keysOKMems_iff ms]

theorem chainKeyLe_of_sorted : ∀ L : List (String × Json),
    List.Sorted keyLeP L → chainKeyLe L = true
  | [], _ => rfl
  | [_], _ => rfl
  | p :: q :: rest, h => by
      rw [List.sorted_cons] at h
      obtain ⟨hall, hrest⟩ := h
      have hpq : keyLeP p q := hall q (by simp)
      simp only [chainKeyLe, Bool.and_eq_true]
      exact ⟨hpq, chainKeyLe_of_sorted (q :: rest) hrest⟩

theorem keysOK_sortNested : ∀ R, keysOK (sortNested R) = true := by
  intro R
  induction R using Json.recMem with
  | hnull => rfl
  | hbool b => rfl
  | hnum n => rfl
  | hstr s => rfl
  | harr l ih =>
    have hlist : ∀ x ∈ sortList l, keysOK x = true := by
      intro x hx
      rw [sortList_eq_map] at hx
      obtain ⟨y, hy, rfl⟩ := List.mem_map.mp hx
      exact ih y hy
    cases l with
    | nil => rfl
    | cons x xs =>
      by_cases hx : x.isObjNode = true
      · rw [show sortNested (.arr (x :: xs)) =
            .arr (List.insertionSort jleP (sortList (x :: xs))) from by
          simp [sortNested, hx]]
        rw [show keysOK (.arr (List.insertionSort jleP (sortList (x :: xs)))) =
            keysOKList (List.insertionSort jleP (sortList (x :: xs))) from rfl]
        rw [keysOKList_iff]
        intro y hy
        exact hlist y ((List.perm_insertionSort jleP _).mem_iff.mp hy)
      · rw [show sortNested (.arr (x :: xs)) = .arr (sortList (x :: xs)) from by
          simp [sortNested, hx]]
        rw [show keysOK (.arr (sortList (x :: xs))) =
            keysOKList (sortList (x :: xs)) from rfl]
        rw [keysOKList_iff]
        exact hlist
  | hobj ms ih =>
    rw [show sortNested (.obj ms) =
        .obj (List.insertionSort keyLeP (sortMems ms)) from by simp [sortNested]]
    rw [show keysOK (.obj (List.insertionSort keyLeP (sortMems ms))) =
        (chainKeyLe (List.insertionSort keyLeP (sortMems ms)) &&
         keysOKMems (List.insertionSort keyLeP (sortMems ms))) from rfl]
    rw [Bool.and_eq_true]
    constructor
    · exact chainKeyLe_of_sorted _ (List.sorted_insertionSort keyLeP _)
    · rw [keysOKMems_iff]
      intro p hp
      have hp2 : p ∈ sortMems ms :=
        (List.perm_insertionSort keyLeP _).mem_iff.mp hp
      rw [sortMems_eq_map] at hp2
      obtain ⟨q, hq, rfl⟩ := List.mem_map.mp hp2
      exact ih q hq

theorem scalar_not_obj {x : Json} (h : x.isScalar = true) : x.isObjNode = false := by
  cases x <;> simp [Json.isObjNode] <;> simp [Json.isScalar] at h

/-- Keys of a member list, in order. -/
def memKeys (ms : List (String × Json)) : List String := ms.map Prod.fst

theorem memKeys_sortMems (ms : List (String × Json)) :
    memKeys (sortMems ms) = memKeys ms := by
  rw [sortMems_eq_map]
  simp [memKeys, List.map_map, Function.comp_def]

/-- An "empty" field value: empty string, empty list or empty object. -/
def isEmptyVal : Json → Bool
  | .str s => s == ""
  | .arr l => l.isEmpty
  | .obj ms => ms.isEmpty
  | _ => false

/-- C3: for every record `R`, `hash(R) = hash(R)` (determinism); the hash is
invariant under `permute_lists`-style reordering of any list all of whose
elements are objects; object keys of the canonical form are sorted
lexicographically at every nesting level; and a list of scalars keeps its
original order in the canonical form. -/
theorem claim_C3 :
    (∀ R : Json, compute_content_hash R = compute_content_hash R) ∧
    (∀ σ : List Json → List Json, (∀ l, List.Perm (σ l) l) →
      ∀ R, compute_content_hash (permuteLists σ R) = compute_content_hash R) ∧
    (∀ R : Json, keysOK (sortNested R) = true) ∧
    (∀ l : List Json, (∀ x ∈ l, x.isScalar = true) →
      sortNested (.arr l) = .arr l) := by
  refine ⟨fun R => rfl, ?_, keysOK_sortNested, ?_⟩
  · intro σ hσ R
    rw [hash_eq_iff]
    exact permuteLists_sortNested σ hσ R
  · intro l hl
    cases l with
    | nil => simp [sortNested]
    | cons x xs =>
      have hx : x.isObjNode = false := scalar_not_obj (hl x (by simp))
      rw [show sortNested (.arr (x :: xs)) = .arr (sortList (x :: xs)) from by
        simp [sortNested, hx]]
      congr 1
      rw [sortList_eq_map]
      have hid : ∀ y ∈ x :: xs, sortNested y = y :=
        fun y hy => sortNested_scalar (hl y hy)
      rw [show List.map sortNested (x :: xs) =
          List.map (fun y => y) (x :: xs) from List.map_congr_left hid,
        List.map_id']

theorem claim_C3_witness :
    compute_content_hash (permuteLists List.reverse
        (Json.arr [Json.obj [("b", Json.null)], Json.obj [("a", Json.null)]])) =
      compute_content_hash
        (Json.arr [Json.obj [("b", Json.null)], Json.obj [("a", Json.null)]]) ∧
    sortNested (Json.arr [Json.null, Json.bool true]) =
      Json.arr [Json.null, Json.bool true] :=
  ⟨claim_C3.2.1 List.reverse (fun l => List.reverse_perm l) _,
   claim_C3.2.2.2 [Json.null, Json.bool true] (by decide)⟩

/-- C6: a record with a field present but bound to an empty value hashes
differently from the otherwise-identical record with the field absent. -/
theorem claim_C6 (ms : List (String × Json)) (F : String) (v : Json)
    (hempty : isEmptyVal v = true) (hF : F ∉ memKeys ms) :
    compute_content_hash (Json.obj ((F, v) :: ms)) ≠
      compute_content_hash (Json.obj ms) := by
  intro h
  rw [hash_eq_iff] at h
  rw [show sortNested (Json.obj ((F, v) :: ms)) =
      .obj (List.insertionSort keyLeP (sortMems ((F, v) :: ms))) from by
    simp [sortNested]] at h
  rw [show sortNested (Json.obj ms) =
      .obj (List.insertionSort keyLeP (sortMems ms)) from by
    simp [sortNested]] at h
  injection h with h
  have hFin : F ∈ memKeys (List.insertionSort keyLeP (sortMems ((F, v) :: ms))) := by
    unfold memKeys
    rw [List.mem_map]
    refine ⟨(F, sortNested v), ?_, rfl⟩
    apply (List.perm_insertionSort keyLeP _).mem_iff.mpr
    rw [sortMems_eq_map]
    simp
  rw [h] at hFin
  have hFin2 : F ∈ memKeys (sortMems ms) := by
    unfold memKeys at hFin ⊢
    rw [List.mem_map] at hFin ⊢
    obtain ⟨p, hp, hpF⟩ := hFin
    exact ⟨p, (List.perm_insertionSort keyLeP _).mem_iff.mp hp, hpF⟩
  rw [memKeys_sortMems] at hFin2
  exact hF hFin2

theorem claim_C6_witness :
    isEmptyVal (Json.str "") = true ∧
    "productDescription" ∉ memKeys [("productId", Json.str "TEST-001"),
      ("productName", Json.str "Test Product")] ∧
    compute_content_hash (Json.obj [("productDescription", Json.str ""),
        ("productId", Json.str "TEST-001"),
        ("productName", Json.str "Test Product")]) ≠
      compute_content_hash (Json.obj [("productId", Json.str "TEST-001"),
        ("productName", Json.str "Test Product")]) :=
  ⟨by decide, by decide, claim_C6 _ _ _ (by decide) (by decide)⟩

/-- C9 counterexample: `[null, {}]` is a list whose first element is a scalar
and whose later element is an object, and reversing it leaves the hash
unchanged (the reversed list starts with an object, so the hasher sorts it
back into the same canonical sequence). -/
theorem claim_C9_counterexample :
    List.Perm [Json.obj [], Json.null] [Json.null, Json.obj []] ∧
    Json.arr [Json.obj [], Json.null] ≠ Json.arr [Json.null, Json.obj []] ∧
    compute_content_hash (Json.arr [Json.obj [], Json.null]) =
      compute_content_hash (Json.arr [Json.null, Json.obj []]) := by
  refine ⟨List.Perm.swap Json.null (Json.obj []) [], ?_, ?_⟩
  · intro h
    injection h with h
    injection h with h1 _
    exact Json.noConfusion h1
  · have hneg : ¬ jleP (Json.obj []) Json.null := by
      unfold jleP
      rw [show ser (Json.obj []) = ['\x7b', '\x7d'] from by simp [ser, serMems]]
      rw [show ser Json.null = ['n', 'u', 'l', 'l'] from by simp [ser, nullChars]]
      decide
    have e1 : sortNested (Json.arr [Json.null, Json.obj []]) =
        Json.arr [Json.null, Json.obj []] := by
      simp [sortNested, sortList, sortMems, Json.isObjNode]
    have e2 : sortNested (Json.arr [Json.obj [], Json.null]) =
        Json.arr [Json.null, Json.obj []] := by
      simp [sortNested, sortList, sortMems, Json.isObjNode,
        List.insertionSort, List.orderedInsert, hneg]
    rw [hash_eq_iff, e1, e2]

/-- C9 amended: a list is sorted by the hasher exactly when its first element
is an object; a scalar-first list keeps its original element order in the
canonical form (even when later elements are objects) and the empty list is
never sorted; for scalar-first lists the hash changes exactly when the
reordering changes the sequence of canonicalized elements (a reordering that
restores the same canonical sequence — e.g. one the sorter undoes — leaves
the hash unchanged). -/
theorem claim_C9_amended :
    (∀ (x : Json) (xs : List Json), x.isScalar = true →
      sortNested (.arr (x :: xs)) = .arr (sortList (x :: xs))) ∧
    (sortNested (.arr []) = .arr []) ∧
    (∀ (x : Json) (xs : List Json), x.isObjNode = true →
      sortNested (.arr (x :: xs)) =
        .arr (List.insertionSort jleP (sortList (x :: xs)))) ∧
    (∀ (x y : Json) (xs ys : List Json), x.isScalar = true → y.isScalar = true →
      (compute_content_hash (.arr (x :: xs)) = compute_content_hash (.arr (y :: ys))
        ↔ sortList (x :: xs) = sortList (y :: ys))) := by
  refine ⟨?_, by simp [sortNested], ?_, ?_⟩
  · intro x xs hx
    simp [sortNested, scalar_not_obj hx]
  · intro x xs hx
    simp [sortNested, hx]
  · intro x y xs ys hx hy
    rw [hash_eq_iff]
    rw [show sortNested (.arr (x :: xs)) = .arr (sortList (x :: xs)) from by
      simp [sortNested, scalar_not_obj hx]]
    rw [show sortNested (.arr (y :: ys)) = .arr (sortList (y :: ys)) from by
      simp [sortNested, scalar_not_obj hy]]
    constructor
    · intro h; exact Json.arr.inj h
    · intro h; rw [h]

theorem claim_C9_amended_witness :
    Json.isScalar (Json.str "x") = true ∧
    sortNested (Json.arr [Json.str "x", Json.obj [("k", Json.null)]]) =
      Json.arr (sortList [Json.str "x", Json.obj [("k", Json.null)]]) :=
  ⟨by decide,
   claim_C9_amended.1 (Json.str "x") [Json.obj [("k", Json.null)]] (by decide)⟩

/-! ## `normalize_phone` (tests/test_atdw_unit.py) -/

/-- `normalize_phone`: keep the digits; fewer than nine digits (this covers
non-numeric and too-short inputs) or an empty/missing value yields `none`;
strip a leading international `61`, then a leading national `0`, and prefix
`+61`. -/
def normalize_phone : Option String → Option String
  | none => none
  | some p =>
    if p = "" then none
    else
      let digits := p.data.filter Char.isDigit
      if digits.length < 9 then none
      else
        let d1 := if digits.take 2 = ['6', '1'] then digits.drop 2 else digits
        let d2 := if d1.take 1 = ['0'] then d1.drop 1 else d1
        some (String.mk ('+' :: '6' :: '1' :: d2))

/-- C8: three distinct formats of the same number normalize to
`"+61298765432"`, and invalid inputs (fewer than nine digits — which covers
non-numeric garbage — the empty string, and null) normalize to null. -/
theorem claim_C8 :
    normalize_phone (some "02 9876 5432") = some "+61298765432" ∧
    normalize_phone (some "(02) 9876 5432") = some "+61298765432" ∧
    normalize_phone (some "+61 2 9876 5432") = some "+61298765432" ∧
    (∀ s : String, (s.data.filter Char.isDigit).length < 9 →
      normalize_phone (some s) = none) ∧
    normalize_phone (some "") = none ∧
    normalize_phone none = none := by
  refine ⟨by decide, by decide, by decide, ?_, by decide, rfl⟩
  intro s hlen
  unfold normalize_phone
  by_cases hp : s = ""
  · simp [hp]
  · simp [hp, hlen]

theorem claim_C8_witness :
    (("invalid" : String).data.filter Char.isDigit).length < 9 ∧
    normalize_phone (some "invalid") = none :=
  ⟨by decide, claim_C8.2.2.2.1 "invalid" (by decide)⟩

/-! ## Monetary parsing in `_upsert_rates` / `_upsert_deals`

The loader converts `priceFrom` / `dealPrice` with
`Decimal(str(x))` inside `try: ... except (ValueError, TypeError): pass`.
`Decimal` rejects a malformed literal with `decimal.InvalidOperation`
(a subclass of `ArithmeticError`, not of `ValueError`), so the except clause
never fires for it. -/

/-- Python exception classes relevant to the loader's number parsing. -/
inductive PyExc where
  | invalidOperation : PyExc
  | valueError : PyExc
  | typeError : PyExc
deriving DecidableEq

/-- Python truthiness of a JSON-derived value. -/
def truthy : Json → Bool
  | .null => false
  | .bool b => b
  | .num n => !(n == 0)
  | .str s => !(s == "")
  | .arr l => !l.isEmpty
  | .obj ms => !ms.isEmpty

/-- `str(x)` for a JSON-derived value (containers are approximated by their
JSON rendering; the monetary fields of the feed are scalars). -/
def pyStr : Json → String
  | .null => "None"
  | .bool true => "True"
  | .bool false => "False"
  | .num n => String.mk (intChars n)
  | .str s => s
  | .arr l => String.mk (ser (.arr l))
  | .obj ms => String.mk (ser (.obj ms))

/-- Does the tail of a decimal literal parse as an optional exponent part
followed by end of string? -/
def expOk : List Char → Bool
  | [] => true
  | c :: r =>
    if c = 'e' ∨ c = 'E' then
      let r' := match r with
        | c' :: r'' => if c' = '+' ∨ c' = '-' then r'' else c' :: r''
        | [] => []
      let p := r'.span (fun c => c.isDigit)
      !p.1.isEmpty && p.2.isEmpty
    else false

/-- Numeric part of a decimal literal: `digits [. digits]` or `. digits`
(at least one digit), then an optional exponent. -/
def numBodyOk (s : List Char) : Bool :=
  let p1 := s.span (fun c => c.isDigit)
  match p1.2 with
  | '.' :: r2 =>
      let p2 := r2.span (fun c => c.isDigit)
      !(p1.1.isEmpty && p2.1.isEmpty) && expOk p2.2
  | r1 => !p1.1.isEmpty && expOk r1

/-- The string grammar accepted by `decimal.Decimal` (whitespace-stripped,
optional sign, numeric literal or the special values `inf`/`infinity`/
`nan`/`snan`; numeric-literal underscores are not modelled). -/
def decimalOk (s : String) : Bool :=
  let t := (s.data.dropWhile Char.isWhitespace).reverse.dropWhile
    Char.isWhitespace |>.reverse
  let body := match t with
    | c :: r => if c = '+' ∨ c = '-' then r else t
    | [] => []
  let low := body.map Char.toLower
  if low = ['i', 'n', 'f'] ∨ low = ['i', 'n', 'f', 'i', 'n', 'i', 't', 'y'] then
    true
  else
    match low with
    | 'n' :: 'a' :: 'n' :: rest => rest.all (fun c => c.isDigit)
    | 's' :: 'n' :: 'a' :: 'n' :: rest => rest.all (fun c => c.isDigit)
    | _ => numBodyOk body

/-- `_upsert_rates` price computation: `price = None`, then
`try: if price_from: price = Decimal(str(price_from))` with
`except (ValueError, TypeError): pass`.  An exception of another class
propagates out of the whole per-product load. -/
def ratePrice (price_from : Option Json) : Except PyExc (Option String) :=
  let attempt : Except PyExc (Option String) :=
    match price_from with
    | none => .ok none
    | some v =>
      if truthy v then
        if decimalOk (pyStr v) then .ok (some (pyStr v))
        else .error .invalidOperation
      else .ok none
  match attempt with
  | .error e => if e = .valueError ∨ e = .typeError then .ok none else .error e
  | .ok r => .ok r

/-- `_upsert_deals` price computation (same construction over `dealPrice`). -/
def dealPrice (deal_price : Option Json) : Except PyExc (Option String) :=
  let attempt : Except PyExc (Option String) :=
    match deal_price with
    | none => .ok none
    | some v =>
      if truthy v then
        if decimalOk (pyStr v) then .ok (some (pyStr v))
        else .error .invalidOperation
      else .ok none
  match attempt with
  | .error e => if e = .valueError ∨ e = .typeError then .ok none else .error e
  | .ok r => .ok r

/-- C4 (code bug): a rate amount of `'free'` (or a deal amount `'$150'`)
makes `Decimal` raise `decimal.InvalidOperation`, which
`except (ValueError, TypeError)` does not catch, so the loader raises
instead of yielding null; well-formed amounts still parse and a missing
amount yields null. -/
theorem claim_C4_code_bug :
    ratePrice (some (Json.str "free")) = .error PyExc.invalidOperation ∧
    dealPrice (some (Json.str "$150")) = .error PyExc.invalidOperation ∧
    ratePrice (some (Json.str "150.50")) = .ok (some "150.50") ∧
    ratePrice none = .ok none := by
  exact ⟨rfl, rfl, rfl, rfl⟩

/-! ## Coordinate selection in `_upsert_product` -/

/-- An entry of the product's `addresses` list (only the fields the
coordinate selection reads). -/
structure Addr where
  addressType : Option String
  geocodeGdaLatitude : Option Json
  geocodeGdaLongitude : Option Json

/-- The value of the Python `lat`/`lng` variables: `None`, a raw value from
`addr.get(...)`, or the result of `float(...)`. -/
inductive PyVal where
  | none : PyVal
  | val (j : Json) : PyVal
  | flt (j : Json) : PyVal

def ofOpt : Option Json → PyVal
  | Option.none => PyVal.none
  | Option.some j => PyVal.val j

def truthyV : PyVal → Bool
  | PyVal.none => false
  | PyVal.val j => truthy j
  | PyVal.flt j => truthy j

def isNoneV : PyVal → Bool
  | PyVal.none => true
  | _ => false

/-- `float(x)`: numbers and booleans convert; strings convert when they parse
as a float literal (modelled by the decimal grammar), otherwise
`ValueError`; other types raise `TypeError`. -/
def floatConv : PyVal → Except PyExc PyVal
  | PyVal.val (Json.str s) =>
      if decimalOk s then .ok (PyVal.flt (Json.str s)) else .error .valueError
  | PyVal.val (Json.num n) => .ok (PyVal.flt (Json.num n))
  | PyVal.val (Json.bool b) => .ok (PyVal.flt (Json.bool b))
  | _ => .error .typeError

/-- First loop of `_upsert_product`: for each address whose `addressType` is
`'PHYSICAL'`, overwrite `lat`/`lng` with its geocode fields and stop
(converting to float) only when both are truthy. -/
def physLoop : List Addr → PyVal → PyVal → Except PyExc (PyVal × PyVal)
  | [], la, lo => .ok (la, lo)
  | a :: rest, la, lo =>
    if a.addressType = some "PHYSICAL" then
      let la' := ofOpt a.geocodeGdaLatitude
      let lo' := ofOpt a.geocodeGdaLongitude
      if truthyV la' && truthyV lo' then
        match floatConv la' with
        | .error e => .error e
        | .ok lf =>
          match floatConv lo' with
          | .error e => .error e
          | .ok gf => .ok (lf, gf)
      else physLoop rest la' lo'
    else physLoop rest la lo

/-- Fallback loop: same, over every address, without the type test. -/
def anyLoop : List Addr → PyVal → PyVal → Except PyExc (PyVal × PyVal)
  | [], la, lo => .ok (la, lo)
  | a :: rest, la, lo =>
    let la' := ofOpt a.geocodeGdaLatitude
    let lo' := ofOpt a.geocodeGdaLongitude
    if truthyV la' && truthyV lo' then
      match floatConv la' with
      | .error e => .error e
      | .ok lf =>
        match floatConv lo' with
        | .error e => .error e
        | .ok gf => .ok (lf, gf)
    else anyLoop rest la' lo'

/-- The full coordinate selection of `_upsert_product`: the PHYSICAL loop,
then — only when one of the leftover variables `is None` — the fallback
loop over all addresses. -/
def extractCoords (addresses : List Addr) : Except PyExc (PyVal × PyVal) :=
  match physLoop addresses PyVal.none PyVal.none with
  | .error e => .error e
  | .ok (la, lo) =>
    if isNoneV la || isNoneV lo then anyLoop addresses la lo
    else .ok (la, lo)

/-- C5 (code bug): a PHYSICAL address carrying only a latitude leaks that
raw (unconverted) latitude into the stored product with a null longitude;
and a PHYSICAL address with latitude `'-28.5'` and longitude `''` blocks
the fallback (the leftover `''` is not `None`), so the POSTAL address that
carries both coordinates is never used. -/
theorem claim_C5_code_bug :
    extractCoords [⟨some "PHYSICAL", some (Json.str "-28.5"), Option.none⟩] =
      .ok (PyVal.val (Json.str "-28.5"), PyVal.none) ∧
    extractCoords
        [⟨some "PHYSICAL", some (Json.str "-28.5"), some (Json.str "")⟩,
         ⟨some "POSTAL", some (Json.str "-30.0"), some (Json.str "150.0")⟩] =
      .ok (PyVal.val (Json.str "-28.5"), PyVal.val (Json.str "")) :=
  ⟨rfl, rfl⟩

/-! ## Media mapping in `_upsert_media` -/

/-- An entry of the product's `multimedia` list (the fields `_upsert_media`
reads for URL resolution and typing). -/
structure MediaItem where
  imageUrl : Option String
  url : Option String
  serverPath : Option String
  imagePath : Option String
  attributeIdMultimediaContent : Option String

/-- A persisted media row. -/
structure MediaRow where
  url : String
  ordinal : Nat
  role : String
  media_type : String
deriving DecidableEq

/-- `.lower()` on a string (by code points, as the feed's type labels are
ASCII). -/
def strLower (s : String) : String := String.mk (s.data.map Char.toLower)

/-- Python `a or b` over an optional string and a fallback string. -/
def pyOrStr (a : Option String) (b : String) : String :=
  match a with
  | some s => if s = "" then b else s
  | none => b

/-- `media.get('imageUrl') or media.get('url') or
(media.get('serverPath','') + media.get('imagePath',''))`. -/
def resolvedUrl (m : MediaItem) : String :=
  pyOrStr m.imageUrl (pyOrStr m.url (m.serverPath.getD "" ++ m.imagePath.getD ""))

/-- The enumerated body of `_upsert_media`: items are numbered from their
1-based position in the original list; an item with an empty resolved URL is
skipped; the role is `'hero'` exactly for original position 1. -/
def mediaRows : Nat → List MediaItem → List MediaRow
  | _, [] => []
  | i, m :: rest =>
    let u := resolvedUrl m
    if u = "" then mediaRows (i + 1) rest
    else
      { url := u, ordinal := i,
        role := if i = 1 then "hero" else "gallery",
        media_type := strLower (m.attributeIdMultimediaContent.getD "IMAGE") } ::
        mediaRows (i + 1) rest

/-- `_upsert_media`'s persisted media list. -/
def upsertMedia (multimedia : List MediaItem) : List MediaRow :=
  mediaRows 1 multimedia

theorem mediaRows_mem : ∀ (mm : List MediaItem) (i : Nat) (r : MediaRow),
    r ∈ mediaRows i mm → r.url ≠ "" ∧ (r.role = "hero" ↔ r.ordinal = 1)
  | [], i, r, hr => by simp [mediaRows] at hr
  | m :: rest, i, r, hr => by
      simp only [mediaRows] at hr
      by_cases hu : resolvedUrl m = ""
      · rw [if_pos hu] at hr
        exact mediaRows_mem rest (i + 1) r hr
      · rw [if_neg hu] at hr
        rcases List.mem_cons.mp hr with h | h
        · subst h
          refine ⟨hu, ?_⟩
          by_cases hi : i = 1
          · simp [hi]
          · simp only [if_neg hi]
            constructor
            · intro hrole; exact absurd hrole (by decide)
            · intro hord; exact absurd hord hi
        · exact mediaRows_mem rest (i + 1) r h

theorem mediaRows_len : ∀ (mm : List MediaItem) (i : Nat),
    (mediaRows i mm).length =
      (mm.filter (fun m => !(resolvedUrl m == ""))).length
  | [], _ => rfl
  | m :: rest, i => by
      simp only [mediaRows]
      by_cases hu : resolvedUrl m = ""
      · rw [if_pos hu]
        rw [List.filter_cons]
        simp [hu]
        exact mediaRows_len rest (i + 1)
      · rw [if_neg hu]
        rw [List.filter_cons]
        simp [hu]
        exact mediaRows_len rest (i + 1)

/-- C7 counterexample: if the first multimedia item has no resolvable URL it
is discarded, and the first *persisted* item (from original position 2) has
role `'gallery'` — no persisted item is hero. -/
theorem claim_C7_counterexample :
    upsertMedia [⟨Option.none, Option.none, Option.none, Option.none, Option.none⟩,
        ⟨some "http://x", Option.none, Option.none, Option.none, Option.none⟩] =
      [⟨"http://x", 2, "gallery", "image"⟩] ∧
    ∀ r ∈ upsertMedia
        [⟨Option.none, Option.none, Option.none, Option.none, Option.none⟩,
         ⟨some "http://x", Option.none, Option.none, Option.none, Option.none⟩],
      r.role ≠ "hero" := by
  refine ⟨by decide, by decide⟩

/-- C7 amended: every persisted media item has a non-empty URL (items whose
resolved URL is empty are discarded, and exactly they), and a persisted
item's role is `'hero'` precisely when its ordinal — its 1-based position in
the *original* multimedia list — is 1; so when the first original item is
discarded, every persisted item has role `'gallery'`. -/
theorem claim_C7_amended (mm : List MediaItem) :
    (∀ r ∈ upsertMedia mm, r.url ≠ "" ∧ (r.role = "hero" ↔ r.ordinal = 1)) ∧
    (upsertMedia mm).length =
      (mm.filter (fun m => !(resolvedUrl m == ""))).length :=
  ⟨fun r hr => mediaRows_mem mm 1 r hr, mediaRows_len mm 1⟩

theorem claim_C7_amended_witness :
    (⟨"http://a", 1, "hero", "image"⟩ : MediaRow) ∈
      upsertMedia [⟨some "http://a", Option.none, Option.none, Option.none,
        Option.none⟩] ∧
    ("http://a" : String) ≠ "" ∧ (("hero" : String) = "hero" ↔ (1 : Nat) = 1) :=
  ⟨by decide,
   (claim_C7_amended [⟨some "http://a", Option.none, Option.none, Option.none,
      Option.none⟩]).1 ⟨"http://a", 1, "hero", "image"⟩ (by decide)⟩

/-! ## Batch-commit orchestration (`ATDWV2Loader.load_state`)

One database connection: `commit` publishes everything pending since the
last commit, `rollback` discards it.  A product is a batch of child-table
writes; a faulty product emits part of its writes and then raises. -/

/-- A product as seen by the loader: its id, the write operations
`_load_product` issues for it (tagged `(product, write#)`), and whether it
raises partway through mapping/upserting (after emitting `emitted`). -/
structure ProdSpec where
  pid : Nat
  emitted : List (Nat × Nat)
  fails : Bool

/-- The store: committed rows and the pending writes of the open
transaction. -/
structure DB where
  committed : List (Nat × Nat)
  pending : List (Nat × Nat)
deriving DecidableEq

def commitDB (db : DB) : DB := ⟨db.committed ++ db.pending, []⟩

def rollbackDB (db : DB) : DB := ⟨db.committed, []⟩

/-- The product loop of `load_state`: on success increment the batch
counter and commit once it reaches `batch_size`; on an exception roll the
connection back (discarding **all** pending writes, also those of earlier
uncommitted products) and reset the counter; a final commit flushes a
non-empty remainder. -/
def loadGo (batchSize : Nat) :
    List ProdSpec → DB → Nat → List Nat → DB × List Nat
  | [], db, bc, processed => (if bc > 0 then commitDB db else db, processed)
  | p :: rest, db, bc, processed =>
    let db' := { db with pending := db.pending ++ p.emitted }
    if p.fails then
      loadGo batchSize rest (rollbackDB db') 0 (processed ++ [p.pid])
    else if bc + 1 ≥ batchSize then
      loadGo batchSize rest (commitDB db') 0 (processed ++ [p.pid])
    else
      loadGo batchSize rest db' (bc + 1) (processed ++ [p.pid])

/-- `load_state`: fresh connection, batch counter zero. -/
def load_state (products : List ProdSpec) (batchSize : Nat) : DB × List Nat :=
  loadGo batchSize products ⟨[], []⟩ 0 []

/-- A well-behaved product with two child writes. -/
def prodOk (i : Nat) : ProdSpec := ⟨i, [(i, 0), (i, 1)], false⟩

/-- The claim's scenario: seven products, `batchSize = 3`, product #5 raises
during mapping after one partial write. -/
def scenarioC1 : List ProdSpec :=
  [prodOk 1, prodOk 2, prodOk 3, prodOk 4, ⟨5, [(5, 0)], true⟩,
   prodOk 6, prodOk 7]

/-- C1 counterexample: product #4's writes are **not** in the store after the
run — `conn.rollback()` on product #5's failure also discards product #4's
uncommitted writes, which share the open transaction. -/
theorem claim_C1_counterexample :
    (4, 0) ∉ (load_state scenarioC1 3).1.committed := by decide

/-- C1 amended: after the run the store holds exactly the writes of products
1–3 (committed at the 3-boundary) and 6–7 (final commit); product #4's
writes are rolled back together with product #5's partial writes because
they share the open transaction; no partial write of #5 survives; and all
seven products are still processed (the run is not aborted). -/
theorem claim_C1_amended :
    (load_state scenarioC1 3).1.committed =
      [(1, 0), (1, 1), (2, 0), (2, 1), (3, 0), (3, 1),
       (6, 0), (6, 1), (7, 0), (7, 1)] ∧
    (load_state scenarioC1 3).1.pending = [] ∧
    (5, 0) ∉ (load_state scenarioC1 3).1.committed ∧
    (4, 0) ∉ (load_state scenarioC1 3).1.committed ∧
    (load_state scenarioC1 3).2 = [1, 2, 3, 4, 5, 6, 7] := by
  refine ⟨by decide, by decide, by decide, by decide, by decide⟩

/-! ## The Attribute Registry (`AttributeRegistry`)

`known_attributes` is the in-memory code → attribute-id mapping (an
association list with Python-dict overwrite semantics: the most recent
binding wins), `unknown_attributes` the set of codes already flagged
unknown this run.  The store is abstracted by an oracle `resp` giving the
`RETURNING attribute_id` result of the i-th `INSERT ... ON CONFLICT`
(`none` = the statement raises), plus a flag for whether `conn.commit()`
succeeds. -/

/-- An upstream attribute entry (`attributes` element of a product). -/
structure AttrIn where
  attributeTypeId : Option String
  attributeId : Option String
  attributeTypeIdDescription : Option String
  attributeIdDescription : Option String

/-- `type_code.replace(' ', '_')`. -/
def underscoreSpaces (s : String) : String :=
  String.mk (s.data.map (fun c => if c = ' ' then '_' else c))

/-- The composite code `f"{type_code.replace(' ', '_')}__{attr_code}"`. -/
def fullCode (a : AttrIn) : String :=
  underscoreSpaces (a.attributeTypeId.getD "") ++ "__" ++ (a.attributeId.getD "")

/-- The record `register_attributes` builds for a newly seen code
(`data_type` is the constant `'bool'` and is omitted). -/
structure NewAttr where
  code : String
  type_code : String
  type_desc : String
  attr_code : String
  label : String

def mkNewAttr (a : AttrIn) : NewAttr :=
  { code := fullCode a,
    type_code := a.attributeTypeId.getD "",
    type_desc := a.attributeTypeIdDescription.getD (a.attributeTypeId.getD ""),
    attr_code := a.attributeId.getD "",
    label := a.attributeIdDescription.getD (a.attributeId.getD "") }

/-- In-memory registry state. -/
structure Registry where
  known : List (String × Nat)
  unknown : List String

/-- The scan phase of `register_attributes`: codes in neither the known map
nor the unknown set are collected as new attributes and immediately added
to the unknown set. -/
def scanAttrs (reg : Registry) : List AttrIn → Registry × List NewAttr
  | [] => (reg, [])
  | a :: rest =>
    if (reg.known.lookup (fullCode a)).isSome = true ∨ fullCode a ∈ reg.unknown
    then scanAttrs reg rest
    else
      match scanAttrs { reg with unknown := reg.unknown ++ [fullCode a] } rest with
      | (reg2, news) => (reg2, mkNewAttr a :: news)

/-- The insert loop of `_add_attributes`: for each attribute, run the upsert;
on success bind the returned id in the in-memory map **immediately** and
discard the code from the unknown set; a raise propagates, leaving the
in-memory state as accumulated so far. -/
def addAttrsGo (resp : Nat → Option Nat) :
    Registry → List NewAttr → Nat → Except Registry Registry
  | reg, [], _ => .ok reg
  | reg, a :: rest, i =>
    match resp i with
    | Option.none => .error reg
    | Option.some id =>
        addAttrsGo resp
          { known := (a.code, id) :: reg.known,
            unknown := reg.unknown.erase a.code } rest (i + 1)

/-- `_add_attributes`: the insert loop followed by `conn.commit()`; a commit
failure raises with the in-memory state already fully updated. -/
def addAttributes (resp : Nat → Option Nat) (commitOk : Bool)
    (reg : Registry) (attrs : List NewAttr) : Except Registry Registry :=
  match addAttrsGo resp reg attrs 0 with
  | .error r => .error r
  | .ok r => if commitOk then .ok r else .error r

/-- `register_attributes`: scan, then — when there are new codes — either
register them (auto-accept, or the operator answering yes) or skip them;
the returned flag is `True` iff no new code was declined. -/
def registerAttributes (reg : Registry) (attrs : List AttrIn) (accept : Bool)
    (resp : Nat → Option Nat) (commitOk : Bool) :
    Except Registry (Registry × Bool) :=
  let reg1 := (scanAttrs reg attrs).1
  let news := (scanAttrs reg attrs).2
  if news.isEmpty then .ok (reg1, true)
  else if accept then
    match addAttributes resp commitOk reg1 news with
    | .error r => .error r
    | .ok r => .ok (r, true)
  else .ok (reg1, false)

/-- C2 counterexample: one new code, the insert succeeds (id 7) and the
commit then fails — `register_attributes` raises with the code already in
the in-memory known map, which the claim says must be left untouched. -/
theorem claim_C2_counterexample :
    registerAttributes ⟨[], []⟩
        [⟨some "ENTITYFAC", some "WIFI", Option.none, Option.none⟩]
        true (fun _ => some 7) false =
      .error ⟨[("ENTITYFAC__WIFI", 7)], []⟩ ∧
    ([("ENTITYFAC__WIFI", 7)] : List (String × Nat)) ≠ [] := by
  exact ⟨rfl, by decide⟩

theorem addAttrsGo_caches (resp : Nat → Option Nat) :
    ∀ (attrs : List NewAttr) (reg : Registry) (i : Nat),
    (∀ j, j < attrs.length → (resp (i + j)).isSome = true) →
    ∃ r, addAttrsGo resp reg attrs i = .ok r ∧
      (∀ a ∈ attrs, ∃ id, r.known.lookup a.code = some id) ∧
      (∀ c v, reg.known.lookup c = some v → ∃ v', r.known.lookup c = some v')
  | [], reg, i, _ => ⟨reg, rfl, by simp, fun c v h => ⟨v, h⟩⟩
  | a :: rest, reg, i, hresp => by
      have h0 : (resp (i + 0)).isSome = true := hresp 0 (by simp)
      rw [Nat.add_zero] at h0
      obtain ⟨id, hid⟩ := Option.isSome_iff_exists.mp h0
      obtain ⟨r, hr, hall, hpres⟩ := addAttrsGo_caches resp rest
        ⟨(a.code, id) :: reg.known, reg.unknown.erase a.code⟩ (i + 1)
        (fun j hj => by
          have hlt : j + 1 < (a :: rest).length := by simp; omega
          have := hresp (j + 1) hlt
          rwa [show i + (j + 1) = i + 1 + j by omega] at this)
      refine ⟨r, ?_, ?_, ?_⟩
      · simp only [addAttrsGo, hid]
        exact hr
      · intro b hb
        rcases List.mem_cons.mp hb with rfl | hb2
        · have hl : (((b.code, id) :: reg.known) : List (String × Nat)).lookup
              b.code = some id := by simp [List.lookup]
          exact hpres b.code id hl
        · exact hall b hb2
      · intro c v hc
        by_cases hca : c = a.code
        · subst hca
          have hl : (((a.code, id) :: reg.known) : List (String × Nat)).lookup
              a.code = some id := by simp [List.lookup]
          exact hpres a.code id hl
        · have hbeq : (c == a.code) = false := beq_eq_false_iff_ne.mpr hca
          have hl : (((a.code, id) :: reg.known) : List (String × Nat)).lookup c =
              some v := by simp [List.lookup, hbeq, hc]
          exact hpres c v hl

theorem addAttrsGo_fail (resp : Nat → Option Nat) :
    ∀ (attrs : List NewAttr) (reg : Registry) (i k : Nat),
    k < attrs.length →
    (∀ j, j < k → (resp (i + j)).isSome = true) →
    resp (i + k) = Option.none →
    ∃ r, addAttrsGo resp reg attrs i = .error r ∧
      (∀ a ∈ attrs.take k, ∃ id, r.known.lookup a.code = some id) ∧
      (∀ c v, reg.known.lookup c = some v → ∃ v', r.known.lookup c = some v') ∧
      (∀ c, reg.known.lookup c = Option.none →
        (∀ a ∈ attrs.take k, a.code ≠ c) → r.known.lookup c = Option.none)
  | [], _, _, k, hk, _, _ => absurd hk (by simp)
  | a :: rest, reg, i, 0, _, _, hfail => by
      rw [Nat.add_zero] at hfail
      refine ⟨reg, ?_, by simp, fun c v h => ⟨v, h⟩, fun c hc _ => hc⟩
      simp [addAttrsGo, hfail]
  | a :: rest, reg, i, k + 1, hk, hsucc, hfail => by
      have h0 : (resp (i + 0)).isSome = true := hsucc 0 (by omega)
      rw [Nat.add_zero] at h0
      obtain ⟨id, hid⟩ := Option.isSome_iff_exists.mp h0
      have hfail2 : resp (i + 1 + k) = Option.none := by
        rwa [show i + 1 + k = i + (k + 1) by omega]
      obtain ⟨r, hr, hcached, hpres, habs⟩ := addAttrsGo_fail resp rest
        ⟨(a.code, id) :: reg.known, reg.unknown.erase a.code⟩ (i + 1) k
        (by simpa using Nat.lt_of_succ_lt_succ hk)
        (fun j hj => by
          have := hsucc (j + 1) (by omega)
          rwa [show i + (j + 1) = i + 1 + j by omega] at this)
        hfail2
      refine ⟨r, ?_, ?_, ?_, ?_⟩
      · simp only [addAttrsGo, hid]
        exact hr
      · intro b hb
        rw [List.take_succ_cons] at hb
        rcases List.mem_cons.mp hb with rfl | hb2
        · have hl : (((b.code, id) :: reg.known) : List (String × Nat)).lookup
              b.code = some id := by simp [List.lookup]
          exact hpres b.code id hl
        · exact hcached b hb2
      · intro c v hcv
        by_cases hca : c = a.code
        · subst hca
          have hl : (((a.code, id) :: reg.known) : List (String × Nat)).lookup
              a.code = some id := by simp [List.lookup]
          exact hpres a.code id hl
        · have hbeq : (c == a.code) = false := beq_eq_false_iff_ne.mpr hca
          exact hpres c v (by simp [List.lookup, hbeq, hcv])
      · intro c hc hnc
        have hcna : a.code ≠ c := by
          apply hnc
          rw [List.take_succ_cons]
          simp
        have hbeq : (c == a.code) = false :=
          beq_eq_false_iff_ne.mpr (fun h => hcna h.symm)
        apply habs c
        · simp [List.lookup, hbeq, hc]
        · intro b hb
          apply hnc
          rw [List.take_succ_cons]
          exact List.mem_cons_of_mem a hb

/-- C2 amended: a code is bound in the in-memory cache immediately after its
own row's `INSERT ... RETURNING` succeeds — before the batch commit.
(i) When every insert succeeds and the commit then fails,
`_add_attributes` raises (`.error`) with **every** code of the batch already
in the known map.  (ii) When the store raises at the k-th insert,
`_add_attributes` raises with the first k codes of the batch already in the
known map, while — for a batch of fresh, pairwise-distinct codes, which is
what `register_attributes` always passes (see `scanAttrs_spec`) — the codes
from the failed insert onwards are absent: a code enters the cache exactly
when its own insert has returned.  (Either way the enclosing transaction is
later rolled back, so the cache then points at rows that no longer
exist.) -/
theorem claim_C2_amended (reg : Registry) (attrs : List NewAttr)
    (resp : Nat → Option Nat) :
    ((∀ j, j < attrs.length → (resp j).isSome = true) →
      ∃ r : Registry, addAttributes resp false reg attrs = .error r ∧
        ∀ a ∈ attrs, ∃ id, r.known.lookup a.code = some id) ∧
    (∀ (k : Nat) (commitOk : Bool), k < attrs.length →
      (∀ j, j < k → (resp j).isSome = true) →
      resp k = Option.none →
      ∃ r : Registry, addAttributes resp commitOk reg attrs = .error r ∧
        ((∀ a ∈ attrs.take k, ∃ id, r.known.lookup a.code = some id) ∧
         ((∀ a ∈ attrs, reg.known.lookup a.code = Option.none) →
           (attrs.map NewAttr.code).Nodup →
           ∀ a ∈ attrs.drop k, r.known.lookup a.code = Option.none))) := by
  constructor
  · intro hresp
    obtain ⟨r, hr, hall, _⟩ := addAttrsGo_caches resp attrs reg 0
      (fun j hj => by simpa using hresp j hj)
    refine ⟨r, ?_, hall⟩
    unfold addAttributes
    rw [hr]
    rfl
  · intro k commitOk hk hsucc hfail
    obtain ⟨r, hr, hcached, _, habs⟩ := addAttrsGo_fail resp attrs reg 0 k hk
      (fun j hj => by simpa using hsucc j hj)
      (by simpa using hfail)
    refine ⟨r, ?_, hcached, ?_⟩
    · unfold addAttributes
      rw [hr]
    · intro hfresh hnd a ha
      apply habs a.code (hfresh a (List.drop_subset _ _ ha))
      intro b hb heq
      have hnd2 : ((attrs.take k).map NewAttr.code ++
          (attrs.drop k).map NewAttr.code).Nodup := by
        rw [← List.map_append, List.take_append_drop]
        exact hnd
      have hdisj := (List.nodup_append.mp hnd2).2.2
      apply hdisj (List.mem_map_of_mem _ hb)
      rw [heq]
      exact List.mem_map_of_mem _ ha

theorem claim_C2_amended_witness :
    (∀ j, j < ([⟨"ENTITYFAC__WIFI", "ENTITYFAC", "ENTITYFAC", "WIFI", "WIFI"⟩] :
        List NewAttr).length →
      ((fun _ => some 7 : Nat → Option Nat) j).isSome = true) ∧
    (∃ r : Registry,
      addAttributes (fun _ => some 7) false ⟨[], []⟩
          [⟨"ENTITYFAC__WIFI", "ENTITYFAC", "ENTITYFAC", "WIFI", "WIFI"⟩] =
        .error r ∧
      ∀ a ∈ ([⟨"ENTITYFAC__WIFI", "ENTITYFAC", "ENTITYFAC", "WIFI", "WIFI"⟩] :
          List NewAttr), ∃ id, r.known.lookup a.code = some id) ∧
    (1 < ([⟨"T__A", "T", "T", "A", "A"⟩, ⟨"T__B", "T", "T", "B", "B"⟩] :
        List NewAttr).length) ∧
    ((fun j => if j = 0 then some 7 else Option.none : Nat → Option Nat) 1 =
      Option.none) ∧
    (∃ r : Registry,
      addAttributes (fun j => if j = 0 then some 7 else Option.none) false
          ⟨[], []⟩ [⟨"T__A", "T", "T", "A", "A"⟩, ⟨"T__B", "T", "T", "B", "B"⟩] =
        .error r ∧
      ((∀ a ∈ ([⟨"T__A", "T", "T", "A", "A"⟩, ⟨"T__B", "T", "T", "B", "B"⟩] :
          List NewAttr).take 1, ∃ id, r.known.lookup a.code = some id) ∧
       ((∀ a ∈ ([⟨"T__A", "T", "T", "A", "A"⟩, ⟨"T__B", "T", "T", "B", "B"⟩] :
           List NewAttr),
           (Registry.mk [] []).known.lookup a.code = Option.none) →
         (([⟨"T__A", "T", "T", "A", "A"⟩, ⟨"T__B", "T", "T", "B", "B"⟩] :
           List NewAttr).map NewAttr.code).Nodup →
         ∀ a ∈ ([⟨"T__A", "T", "T", "A", "A"⟩, ⟨"T__B", "T", "T", "B", "B"⟩] :
           List NewAttr).drop 1, r.known.lookup a.code = Option.none))) :=
  ⟨fun j _ => rfl,
   (claim_C2_amended ⟨[], []⟩
     [⟨"ENTITYFAC__WIFI", "ENTITYFAC", "ENTITYFAC", "WIFI", "WIFI"⟩]
     (fun _ => some 7)).1 (fun j _ => rfl),
   by decide,
   rfl,
   (claim_C2_amended ⟨[], []⟩
     [⟨"T__A", "T", "T", "A", "A"⟩, ⟨"T__B", "T", "T", "B", "B"⟩]
     (fun j => if j = 0 then some 7 else Option.none)).2 1 false (by decide)
     (fun j hj => by
       have hj0 : j = 0 := by omega
       subst hj0
       rfl)
     rfl⟩

theorem scanAttrs_spec : ∀ (attrs : List AttrIn) (reg : Registry),
    (scanAttrs reg attrs).1.known = reg.known ∧
    (∀ n ∈ (scanAttrs reg attrs).2,
      reg.known.lookup n.code = Option.none ∧ n.code ∉ reg.unknown) ∧
    ((scanAttrs reg attrs).2.map NewAttr.code).Nodup
  | [], reg => ⟨rfl, by simp [scanAttrs], by simp [scanAttrs]⟩
  | a :: rest, reg => by
      by_cases hc : (reg.known.lookup (fullCode a)).isSome = true ∨
          fullCode a ∈ reg.unknown
      · have he : scanAttrs reg (a :: rest) = scanAttrs reg rest := by
          simp only [scanAttrs, if_pos hc]
        rw [he]
        exact scanAttrs_spec rest reg
      · obtain ⟨hna, hnu⟩ := not_or.mp hc
        have h1 : reg.known.lookup (fullCode a) = Option.none := by
          cases ho : reg.known.lookup (fullCode a) with
          | none => rfl
          | some v => exact absurd (by rw [ho]; rfl) hna
        obtain ⟨ihk, ihn, ihnd⟩ := scanAttrs_spec rest
          { reg with unknown := reg.unknown ++ [fullCode a] }
        have he : scanAttrs reg (a :: rest) =
            ((scanAttrs { reg with unknown := reg.unknown ++ [fullCode a] } rest).1,
             mkNewAttr a ::
              (scanAttrs { reg with unknown := reg.unknown ++ [fullCode a] } rest).2) := by
          simp only [scanAttrs, if_neg hc]
        rw [he]
        refine ⟨ihk, ?_, ?_⟩
        · intro n hn
          rcases List.mem_cons.mp hn with rfl | hn2
          · exact ⟨h1, hnu⟩
          · obtain ⟨hl, hu⟩ := ihn n hn2
            refine ⟨hl, fun hmem => hu ?_⟩
            exact List.mem_append_left _ hmem
        · simp only [List.map_cons, List.nodup_cons]
          refine ⟨?_, ihnd⟩
          intro hmem
          rw [List.mem_map] at hmem
          obtain ⟨n, hn, hcode⟩ := hmem
          obtain ⟨_, hu⟩ := ihn n hn
          apply hu
          rw [hcode]
          exact List.mem_append_right _ (by simp [mkNewAttr])

/-- The in-memory registry left behind by `_add_attributes`, whether it
returned or raised. -/
def regOf : Except Registry Registry → Registry
  | .ok r => r
  | .error r => r

theorem addAttrsGo_lookup_pres (resp : Nat → Option Nat) :
    ∀ (attrs : List NewAttr) (reg : Registry) (i : Nat) (c : String) (v : Nat),
    (∀ a ∈ attrs, reg.known.lookup a.code = Option.none) →
    ((attrs.map NewAttr.code).Nodup) →
    reg.known.lookup c = some v →
    (regOf (addAttrsGo resp reg attrs i)).known.lookup c = some v
  | [], reg, i, c, v, _, _, hcv => by simpa [addAttrsGo, regOf] using hcv
  | a :: rest, reg, i, c, v, hfresh, hnd, hcv => by
      cases hid : resp i with
      | none => simpa [addAttrsGo, hid, regOf] using hcv
      | some id =>
        have hca : c ≠ a.code := by
          intro h
          rw [h, hfresh a (by simp)] at hcv
          exact Option.noConfusion hcv
        have hbeq : (c == a.code) = false := beq_eq_false_iff_ne.mpr hca
        have hcv' : (((a.code, id) :: reg.known) : List (String × Nat)).lookup c =
            some v := by simp [List.lookup, hbeq, hcv]
        have hfresh' : ∀ b ∈ rest,
            (((a.code, id) :: reg.known) : List (String × Nat)).lookup b.code =
              Option.none := by
          intro b hb
          have hbne : b.code ≠ a.code := by
            simp only [List.map_cons, List.nodup_cons] at hnd
            intro h
            exact hnd.1 (by rw [← h]; exact List.mem_map_of_mem _ hb)
          have hbeq2 : (b.code == a.code) = false := beq_eq_false_iff_ne.mpr hbne
          simp [List.lookup, hbeq2, hfresh b (by simp [hb])]
        have hnd' : (rest.map NewAttr.code).Nodup := by
          simp only [List.map_cons, List.nodup_cons] at hnd
          exact hnd.2
        simp only [addAttrsGo, hid]
        exact addAttrsGo_lookup_pres resp rest _ (i + 1) c v hfresh' hnd' hcv'

/-- One `register_attributes` call with its fault/decision injection. -/
structure RegEvent where
  attrs : List AttrIn
  accept : Bool
  resp : Nat → Option Nat
  commitOk : Bool

/-- The registry after a `register_attributes` call: the loader keeps using
the same in-memory registry whether the call returned or raised (the
exception is caught in `load_state`, which only rolls back the store). -/
def regStep (reg : Registry) (e : RegEvent) : Registry :=
  match registerAttributes reg e.attrs e.accept e.resp e.commitOk with
  | .ok (r, _) => r
  | .error r => r

def regRun : Registry → List RegEvent → Registry
  | reg, [] => reg
  | reg, e :: es => regRun (regStep reg e) es

theorem regStep_pres (reg : Registry) (e : RegEvent) (c : String) (id : Nat)
    (h : reg.known.lookup c = some id) :
    (regStep reg e).known.lookup c = some id := by
  obtain ⟨hknown, hfresh0, hnd⟩ := scanAttrs_spec e.attrs reg
  unfold regStep registerAttributes
  by_cases hni : (scanAttrs reg e.attrs).2.isEmpty = true
  · simp only [hni, if_true]
    rw [hknown]
    exact h
  · have hni' : (scanAttrs reg e.attrs).2.isEmpty = false := by
      revert hni; cases (scanAttrs reg e.attrs).2.isEmpty <;> simp
    have hfresh : ∀ a ∈ (scanAttrs reg e.attrs).2,
        (scanAttrs reg e.attrs).1.known.lookup a.code = Option.none :=
      fun a ha => by rw [hknown]; exact (hfresh0 a ha).1
    have hc1 : (scanAttrs reg e.attrs).1.known.lookup c = some id := by
      rw [hknown]; exact h
    have key := addAttrsGo_lookup_pres e.resp _ _ 0 c id hfresh hnd hc1
    by_cases hacc : e.accept = true
    · simp only [hni', hacc, Bool.false_eq_true, if_false, if_true]
      unfold addAttributes
      cases hgo : addAttrsGo e.resp (scanAttrs reg e.attrs).1
          (scanAttrs reg e.attrs).2 0 with
      | error r =>
        rw [hgo] at key
        simp only [regOf] at key
        exact key
      | ok r =>
        rw [hgo] at key
        simp only [regOf] at key
        cases hcm : e.commitOk with
        | true => simp only [if_true]; exact key
        | false => simp only [Bool.false_eq_true, if_false]; exact key
    · have hacc' : e.accept = false := by
        revert hacc; cases e.accept <;> simp
      simp only [hni', hacc', Bool.false_eq_true, if_false]
      rw [hknown]
      exact h

/-- C10: within a run, the registry's known-code mapping only grows — once a
composite code is bound to an attribute id, every later
`register_attributes` call (accepted, declined, or raising in the store)
leaves that binding intact. -/
theorem claim_C10 : ∀ (events : List RegEvent) (reg : Registry) (c : String)
    (id : Nat), reg.known.lookup c = some id →
    (regRun reg events).known.lookup c = some id
  | [], reg, c, id, h => h
  | e :: es, reg, c, id, h =>
      claim_C10 es (regStep reg e) c id (regStep_pres reg e c id h)

theorem claim_C10_witness :
    (Registry.mk [("A__B", 3)] []).known.lookup "A__B" = some 3 ∧
    (regRun ⟨[("A__B", 3)], []⟩
        [⟨[⟨some "X", some "Y", Option.none, Option.none⟩], true,
          fun _ => some 9, true⟩]).known.lookup "A__B" = some 3 :=
  ⟨rfl, claim_C10 _ _ _ _ rfl⟩
